import Mathlib

/-!
# A verification development for the concurrent crawler of `main.go`

The Go program consists of

* `fetchHistory` with its method `Set` (the store of visited URLs),
* `Crawl`, a goroutine body that fetches one URL and spawns one goroutine per
  newly marked link,
* `main`, which starts the seed goroutine and waits on a `sync.WaitGroup`,
* `fakeFetcher`, a canned `Fetcher`.

The embedding has two layers.

* `Set` is the method run on its own, as a function on history values.
* `setStep` and `step` are a small-step interleaving semantics: every goroutine
  is a `Task` with a program counter, a schedule is a list of task indices, and
  one scheduled step performs one shared-memory action of the chosen
  goroutine.  The program counters inside `Set` follow the statements of the
  method one by one, so the unlocked test of lines 65-70 and the locked
  store of lines 72-75 are separate steps, as in the source.  Shared memory is
  sequentially consistent: a run is an interleaving of such steps.

The map read of `Set` (line 68) is outside the mutex.  When it is executed
while another goroutine is inside the locked store of lines 72-75 it is a map
read concurrent with a map write, which the Go run-time system answers with a
fatal error that ends the program.  `setStep` has the program counter `fatal`
for this, and `step` then stops every goroutine that has not returned
(`State.abort`); the counter of the wait group keeps its value, so `wg.Wait()`
does not return in such a run.

`stepAtomic` fuses the steps of one `Set` call into a single step; it is the
semantics in which calls of `Set` do not overlap.

Every state carries a trace of events (`Fetch` invoked, line printed, `Set`
entered and returned, goroutine started, `wg.Done()`, fatal error), which is
what the theorems about fetches, output and completion reports speak of.
-/

namespace Crawler

/-! ## The fetcher -/

/-- Outcome of `Fetch(url)`: `(body, urls, nil)` or `("", nil, err)`. -/
inductive FetchResult
  | ok (body : String) (urls : List String)
  | err (msg : String)
deriving DecidableEq, Repr

/-- The `Fetcher` interface.  `Fetch` is a function of the URL, as it is for
`fakeFetcher`. -/
abbrev Fetcher := String → FetchResult

/-- The struct `fakeResult`. -/
structure fakeResult where
  body : String
  urls : List String
deriving DecidableEq, Repr

/-- The type `fakeFetcher`, a map from URL to canned result, kept as an
association list. -/
abbrev fakeFetcher := List (String × fakeResult)

/-- The method `fakeFetcher.Fetch` (lines 79-85). -/
def fakeFetcher.Fetch (f : fakeFetcher) (url : String) : FetchResult :=
  match f.lookup url with
  | some res => .ok res.body res.urls
  | none => .err ("not found: " ++ url)

/-- The populated `fetcher` of lines 88-119. -/
def fetcher : fakeFetcher :=
  [ ("http://golang.org/",
      ⟨"The Go Programming Language",
        ["http://golang.org/pkg/", "http://golang.org/cmd/"]⟩),
    ("http://golang.org/pkg/",
      ⟨"Packages",
        ["http://golang.org/", "http://golang.org/cmd/",
         "http://golang.org/pkg/fmt/", "http://golang.org/pkg/os/"]⟩),
    ("http://golang.org/pkg/fmt/",
      ⟨"Package fmt", ["http://golang.org/", "http://golang.org/pkg/"]⟩),
    ("http://golang.org/pkg/os/",
      ⟨"Package os", ["http://golang.org/", "http://golang.org/pkg/"]⟩) ]

/-! ## The history of visited URLs -/

/-- The struct `fetchHistory`: the embedded `sync.Mutex` (held or free) and
`history_map`, a `map[string]struct{}`, that is a finite set of keys, or the
nil map (`none`). -/
structure fetchHistory where
  locked : Bool
  history_map : Option (Finset String)
deriving DecidableEq

/-- The zero value declared by `var history fetchHistory`. -/
def fetchHistory.zero : fetchHistory := ⟨false, none⟩

/-- The URLs recorded in a history; the nil map holds none. -/
def fetchHistory.keys (h : fetchHistory) : Finset String :=
  match h.history_map with
  | some m => m
  | none => ∅

/-- The error value built by `fmt.Errorf("already visited: %s", url)`. -/
def alreadyVisited (url : String) : String := "already visited: " ++ url

/-- The method `fetchHistory.Set` (lines 64-77) run without interference.
The result is `none` when the call never returns, which happens when it
reaches `h.Lock()` while the mutex is held; otherwise it is the history after
the call and the returned error (`none` for the nil error). -/
def Set (h : fetchHistory) (url : String) : Option (fetchHistory × Option String) :=
  let h1 : fetchHistory :=
    match h.history_map with
    | none => { h with history_map := some ∅ }
    | some _ => h
  if url ∈ h1.keys then
    some (h1, some (alreadyVisited url))
  else if h1.locked then
    none
  else
    some ({ h1 with history_map := some (insert url h1.keys) }, none)

/-- Program counter inside one call of `Set`, one constructor per statement. -/
inductive SetPC
  | entry                       -- before `if h.history_map == nil`
  | make                        -- before `h.history_map = make(...)`
  | lookup                      -- before `if _, ok := h.history_map[url]; ok`
  | lock                        -- before `h.Lock()`
  | store                       -- before `h.history_map[url] = struct{}{}`
  | unlock                      -- before `h.Unlock()`
  | ret (err : Option String)   -- returned
  | fatal                       -- the run-time system has aborted the program
deriving DecidableEq, Repr

/-- One statement of `Set`.

The result is `none` when the statement cannot be executed now: `Lock` on a
held mutex blocks, and a call that has returned or was aborted has no further
statement.

The next program counter is `fatal` when the statement makes the Go run-time
system abort the whole program:

* the map read of line 68 is outside the mutex, and the critical section of
  lines 72-75 consists of the map write alone; a read executed while another
  goroutine is inside the critical section is a map read concurrent with a map
  write, `fatal error: concurrent map read and map write`.  A reader does not
  take the mutex, so `Lock` and `Unlock` are invisible to it: the critical
  section stands for the duration of the write of line 73;
* a store into the nil map panics;
* `Unlock` of a free mutex is `fatal error: sync: unlock of unlocked mutex`. -/
def setStep (h : fetchHistory) (url : String) : SetPC → Option (fetchHistory × SetPC)
  | .entry =>
      match h.history_map with
      | none => some (h, .make)
      | some _ => some (h, .lookup)
  | .make => some ({ h with history_map := some ∅ }, .lookup)
  | .lookup =>
      if h.locked then some (h, .fatal)
      else if url ∈ h.keys then some (h, .ret (some (alreadyVisited url)))
      else some (h, .lock)
  | .lock => if h.locked then none else some ({ h with locked := true }, .store)
  | .store =>
      match h.history_map with
      | none => some (h, .fatal)
      | some m => some ({ h with history_map := some (insert url m) }, .unlock)
  | .unlock =>
      if h.locked then some ({ h with locked := false }, .ret none) else some (h, .fatal)
  | .ret _ => none
  | .fatal => none

/-! ## Goroutines running `Crawl` -/

/-- A line written to standard output. -/
inductive Line
  | found (url body : String)   -- `fmt.Printf("found: %s %q\n", url, body)`
  | error (msg : String)        -- `fmt.Println(err)`
deriving DecidableEq, Repr

/-- Observable actions, each tagged with the index of the acting goroutine. -/
inductive Event
  | fetch (t : Nat) (url : String)                       -- `fetcher.Fetch(url)` is invoked
  | print (t : Nat) (line : Line)                        -- a line is printed
  | setCall (t : Nat) (url : String)                     -- `history.Set(url)` is entered
  | setRet (t : Nat) (url : String) (err : Option String) -- `history.Set(url)` returns
  | spawn (t : Nat) (url : String) (depth : Int)         -- `wg.Add(1); go Crawl(url, depth, ...)`
  | done (t : Nat)                                       -- the deferred `wg.Done()`
  | fatal (t : Nat)                                      -- the program is aborted
deriving DecidableEq, Repr

/-- Program counter of a goroutine running `Crawl`. -/
inductive PC
  | pending                                              -- spawned, body not yet entered
  | fetching                                             -- waiting for `Fetch` to return
  | failed                                               -- the error is printed, before `return`
  | expanding (urls : List String)                       -- at the head of the `for` loop
  | inSet (sp : SetPC) (u : String) (rest : List String) -- inside `history.Set(u)`
  | completed                                            -- returned, `wg.Done()` has run
  | aborted                                              -- stopped when the program was aborted
deriving DecidableEq, Repr

/-- A goroutine: the arguments `url` and `depth` of its `Crawl` call and its
program counter. -/
structure Task where
  url : String
  depth : Int
  pc : PC
deriving DecidableEq, Repr

/-- The shared state of a run: the history, the counter of the wait group, the
goroutines in order of creation, and the events so far. -/
structure State where
  history : fetchHistory
  wg : Int
  tasks : List Task
  trace : List Event
deriving DecidableEq

/-- What one step of a goroutine does: the history it leaves, its next program
counter, the change of the wait-group counter, the goroutines it starts and
the events it emits. -/
structure Effect where
  history : fetchHistory
  pc : PC
  wgDelta : Int
  children : List Task
  events : List Event
deriving DecidableEq

/-- One step of the body of `Crawl` (lines 16-38) for goroutine `t` of index
`i`, given the shared history `h`; `none` when the goroutine has returned or
cannot move.

* `pending`: `defer wg.Done()` is registered and `depth <= 0` is tested; the
  goroutine returns (running `wg.Done()`) or invokes `Fetch`.
* `fetching`: `Fetch` returns; the error or the `found` line is printed.
* `failed`, `expanding []`: `return`, the deferred `wg.Done()` runs.
* `expanding (u :: rest)`: `history.Set(u)` is entered.
* `inSet sp u rest`: one statement of `Set`; after the return, `continue` on an
  error and `wg.Add(1); go Crawl(u, depth-1, ...)` on nil.  When the statement
  of `Set` is fatal the goroutine ends as `aborted`. -/
def Crawl (f : Fetcher) (h : fetchHistory) (i : Nat) (t : Task) : Option Effect :=
  match t.pc with
  | .pending =>
      if t.depth ≤ 0 then some ⟨h, .completed, -1, [], [.done i]⟩
      else some ⟨h, .fetching, 0, [], [.fetch i t.url]⟩
  | .fetching =>
      match f t.url with
      | .err e => some ⟨h, .failed, 0, [], [.print i (.error e)]⟩
      | .ok body urls => some ⟨h, .expanding urls, 0, [], [.print i (.found t.url body)]⟩
  | .failed => some ⟨h, .completed, -1, [], [.done i]⟩
  | .expanding [] => some ⟨h, .completed, -1, [], [.done i]⟩
  | .expanding (u :: rest) => some ⟨h, .inSet .entry u rest, 0, [], [.setCall i u]⟩
  | .inSet sp u rest =>
      match sp with
      | .ret (some _) => some ⟨h, .expanding rest, 0, [], []⟩
      | .ret none =>
          some ⟨h, .expanding rest, 1, [⟨u, t.depth - 1, .pending⟩], [.spawn i u (t.depth - 1)]⟩
      | _ =>
          match setStep h u sp with
          | none => none
          | some (h1, .ret r) => some ⟨h1, .inSet (.ret r) u rest, 0, [], [.setRet i u r]⟩
          | some (h1, .fatal) => some ⟨h1, .aborted, 0, [], [.fatal i]⟩
          | some (h1, sp1) => some ⟨h1, .inSet sp1 u rest, 0, [], []⟩
  | .completed => none
  | .aborted => none

/-- Commit the effect of a step of goroutine `i`, whose record was `t`. -/
def State.apply (s : State) (i : Nat) (t : Task) (e : Effect) : State :=
  { history := e.history,
    wg := s.wg + e.wgDelta,
    tasks := s.tasks.set i { t with pc := e.pc } ++ e.children,
    trace := s.trace ++ e.events }

/-- A goroutine that has not returned is stopped. -/
def Task.kill (t : Task) : Task :=
  if t.pc = .completed then t else { t with pc := .aborted }

/-- The program is aborted by the run-time system: every goroutine that has
not returned stops for good.  The counter of the wait group stays as it is,
so `wg.Wait()` does not return. -/
def State.abort (s : State) : State :=
  { s with tasks := s.tasks.map Task.kill }

/-- One scheduled step: goroutine `i` performs its next action; `none` when
there is no such goroutine or it cannot move.  A fatal action aborts the
program. -/
def step (f : Fetcher) (s : State) (i : Nat) : Option State :=
  match s.tasks[i]? with
  | none => none
  | some t =>
      (Crawl f s.history i t).map
        (fun e => if e.pc = .aborted then (s.apply i t e).abort else s.apply i t e)

/-- Run a schedule: the listed goroutines take one step each, in order; an entry
naming a goroutine that cannot move is skipped. -/
def run (f : Fetcher) (s : State) (sched : List Nat) : State :=
  sched.foldl (fun s i => (step f s i).getD s) s

/-- The state set up by `main` (lines 41-44) for a seed URL and a depth: the
counter is 1, the history is the zero value, the seed goroutine is pending. -/
def mainStart (seed : String) (depth : Int) : State :=
  { history := fetchHistory.zero, wg := 1, tasks := [⟨seed, depth, .pending⟩], trace := [] }

/-- The start state of `main` itself: `Crawl("http://golang.org/", 4, ...)`. -/
def main : State := mainStart "http://golang.org/" 4

/-- The call `wg.Wait()` of `main` returns in a state whose counter is zero. -/
abbrev waitReturns (s : State) : Prop := s.wg = 0

/-- Every goroutine has returned. -/
abbrev allDone (s : State) : Prop := ∀ t ∈ s.tasks, t.pc = .completed

/-- Whether a program counter is inside a call of `Set` that has not returned. -/
def midSetPC : PC → Bool
  | .inSet (.ret _) _ _ => false
  | .inSet _ _ _ => true
  | _ => false

/-- Whether goroutine `i` is inside a call of `Set` that has not returned. -/
def midSet (s : State) (i : Nat) : Bool :=
  match s.tasks[i]? with
  | some t => midSetPC t.pc
  | none => false

/-- Let goroutine `i` run on alone until its current call of `Set`, if any, has
returned (a call has at most six statements). -/
def finishSet (f : Fetcher) (i : Nat) : Nat → State → State
  | 0, s => s
  | n + 1, s =>
      if midSet s i then
        match step f s i with
        | some s1 => finishSet f i n s1
        | none => s
      else s

/-- One step in the semantics where every call of `Set` is atomic: a step that
enters `Set` is continued until the call returns. -/
def stepAtomic (f : Fetcher) (s : State) (i : Nat) : Option State :=
  (step f s i).map (finishSet f i 6)

/-- Run a schedule in the semantics with atomic `Set`. -/
def runAtomic (f : Fetcher) (s : State) (sched : List Nat) : State :=
  sched.foldl (fun s i => (stepAtomic f s i).getD s) s

/-! ## Concurrent calls of `Set` on one history -/

/-- A call of `Set` in progress. -/
structure SetCall where
  url : String
  pc : SetPC
deriving DecidableEq, Repr

/-- Several goroutines calling `Set` on one shared history. -/
structure SetSys where
  history : fetchHistory
  calls : List SetCall
deriving DecidableEq

/-- Call `i` executes its next statement; no call moves once the program has
been aborted. -/
def SetSys.step (s : SetSys) (i : Nat) : Option SetSys :=
  if s.calls.any (fun c => c.pc = .fatal) then none
  else
    match s.calls[i]? with
    | none => none
    | some c =>
        match setStep s.history c.url c.pc with
        | none => none
        | some (h, pc) => some ⟨h, s.calls.set i ⟨c.url, pc⟩⟩

/-- Run a schedule of calls; a call that cannot move is skipped. -/
def SetSys.run (s : SetSys) (sched : List Nat) : SetSys :=
  sched.foldl (fun s i => (s.step i).getD s) s

/-! ## Observations on traces -/

/-- Number of `Fetch` invocations for `url` in a trace. -/
def fetchCount (url : String) (tr : List Event) : Nat :=
  tr.countP (fun e => match e with | .fetch _ u => u = url | _ => false)

/-- The set of URLs for which `Fetch` was invoked. -/
def fetchedSet (tr : List Event) : Finset String :=
  (tr.filterMap (fun e => match e with | .fetch _ u => some u | _ => none)).toFinset

/-- Number of `wg.Done()` calls of goroutine `i` in a trace. -/
def doneCount (i : Nat) (tr : List Event) : Nat :=
  tr.countP (fun e => match e with | .done j => j = i | _ => false)

/-- Number of `wg.Done()` calls in a trace. -/
def doneTotal (tr : List Event) : Nat :=
  tr.countP (fun e => match e with | .done _ => true | _ => false)

/-- Number of spawns (`wg.Add(1); go Crawl(...)`) in a trace. -/
def spawnTotal (tr : List Event) : Nat :=
  tr.countP (fun e => match e with | .spawn _ _ _ => true | _ => false)

/-- Number of spawns of a goroutine for `url` in a trace. -/
def spawnCount (url : String) (tr : List Event) : Nat :=
  tr.countP (fun e => match e with | .spawn _ u _ => u = url | _ => false)

/-- Number of calls `Set(url)` that returned nil in a trace. -/
def setOkCount (url : String) (tr : List Event) : Nat :=
  tr.countP (fun e => match e with | .setRet _ u none => u = url | _ => false)

/-- Number of goroutines that have not returned. -/
def liveCount (s : State) : Nat := s.tasks.countP (fun t => t.pc ≠ .completed)

/-- The two-page cyclic site `A -> B -> A`. -/
def cycleAB : Fetcher := fun u =>
  if u = "A" then .ok "a" ["B"] else if u = "B" then .ok "b" ["A"] else .err ("not found: " ++ u)

/-- A site on which `X` is linked from the seed `S` and from the page `A`, and
leads on to `Y` and `Z`. -/
def diamond : Fetcher := fun u =>
  if u = "S" then .ok "s" ["A", "X"]
  else if u = "A" then .ok "a" ["X"]
  else if u = "X" then .ok "x" ["Y"]
  else if u = "Y" then .ok "y" ["Z"]
  else .err ("not found: " ++ u)

/-- A site on which the pages `A` and `B`, both linked from the seed `S`, link
to the same page `X`. -/
def twoParents : Fetcher := fun u =>
  if u = "S" then .ok "s" ["A", "B"]
  else if u = "A" then .ok "a" ["X"]
  else if u = "B" then .ok "b" ["X"]
  else if u = "X" then .ok "x" []
  else .err ("not found: " ++ u)

/-- A site whose seed `S` links to the unknown URL `X` and to the page `Y`. -/
def brokenLink : Fetcher := fun u =>
  if u = "S" then .ok "s" ["X", "Y"]
  else if u = "Y" then .ok "y" []
  else .err ("not found: " ++ u)

/-! ## The steps of a goroutine, case by case -/

/-- The relation `Move f i h t e` lists the steps of `Crawl` that do not abort
the program: goroutine `t` of index `i`, seeing history `h`, can make a step
with effect `e`. -/
inductive Move (f : Fetcher) (i : Nat) : fetchHistory → Task → Effect → Prop
  | baseCase (h url d) (hd : d ≤ 0) :
      Move f i h ⟨url, d, .pending⟩ ⟨h, .completed, -1, [], [.done i]⟩
  | callFetch (h url d) (hd : 0 < d) :
      Move f i h ⟨url, d, .pending⟩ ⟨h, .fetching, 0, [], [.fetch i url]⟩
  | fetchErr (h url d msg) (hf : f url = .err msg) :
      Move f i h ⟨url, d, .fetching⟩ ⟨h, .failed, 0, [], [.print i (.error msg)]⟩
  | fetchOk (h url d body urls) (hf : f url = .ok body urls) :
      Move f i h ⟨url, d, .fetching⟩ ⟨h, .expanding urls, 0, [], [.print i (.found url body)]⟩
  | errReturn (h url d) :
      Move f i h ⟨url, d, .failed⟩ ⟨h, .completed, -1, [], [.done i]⟩
  | loopEnd (h url d) :
      Move f i h ⟨url, d, .expanding []⟩ ⟨h, .completed, -1, [], [.done i]⟩
  | callSet (h url d u rest) :
      Move f i h ⟨url, d, .expanding (u :: rest)⟩ ⟨h, .inSet .entry u rest, 0, [], [.setCall i u]⟩
  | sawNil (b url d u rest) :
      Move f i ⟨b, none⟩ ⟨url, d, .inSet .entry u rest⟩ ⟨⟨b, none⟩, .inSet .make u rest, 0, [], []⟩
  | sawMap (b m url d u rest) :
      Move f i ⟨b, some m⟩ ⟨url, d, .inSet .entry u rest⟩
        ⟨⟨b, some m⟩, .inSet .lookup u rest, 0, [], []⟩
  | makeMap (h url d u rest) :
      Move f i h ⟨url, d, .inSet .make u rest⟩
        ⟨⟨h.locked, some ∅⟩, .inSet .lookup u rest, 0, [], []⟩
  | present (h url d u rest) (hu : u ∈ h.keys) (hl : h.locked = false) :
      Move f i h ⟨url, d, .inSet .lookup u rest⟩
        ⟨h, .inSet (.ret (some (alreadyVisited u))) u rest, 0, [],
          [.setRet i u (some (alreadyVisited u))]⟩
  | absent (h url d u rest) (hu : u ∉ h.keys) (hl : h.locked = false) :
      Move f i h ⟨url, d, .inSet .lookup u rest⟩ ⟨h, .inSet .lock u rest, 0, [], []⟩
  | lock (m url d u rest) :
      Move f i ⟨false, m⟩ ⟨url, d, .inSet .lock u rest⟩ ⟨⟨true, m⟩, .inSet .store u rest, 0, [], []⟩
  | store (b m url d u rest) :
      Move f i ⟨b, some m⟩ ⟨url, d, .inSet .store u rest⟩
        ⟨⟨b, some (insert u m)⟩, .inSet .unlock u rest, 0, [], []⟩
  | unlock (m url d u rest) :
      Move f i ⟨true, m⟩ ⟨url, d, .inSet .unlock u rest⟩
        ⟨⟨false, m⟩, .inSet (.ret none) u rest, 0, [], [.setRet i u none]⟩
  | skip (h url d msg u rest) :
      Move f i h ⟨url, d, .inSet (.ret (some msg)) u rest⟩ ⟨h, .expanding rest, 0, [], []⟩
  | spawn (h url d u rest) :
      Move f i h ⟨url, d, .inSet (.ret none) u rest⟩
        ⟨h, .expanding rest, 1, [⟨u, d - 1, .pending⟩], [.spawn i u (d - 1)]⟩

/-! ## Sums over the goroutines -/

/-- The sum of a weight over a list of goroutines. -/
def tally (g : Task → Nat) (l : List Task) : Nat := (l.map g).sum

/-- Weight 1 for a goroutine that has not returned. -/
def live (t : Task) : Nat := if t.pc = .completed then 0 else 1

/-- Weight 1 for a goroutine that has returned. -/
def dead (t : Task) : Nat := if t.pc = .completed then 1 else 0

/-- Whether goroutine `j` exists and has returned, as a number. -/
def doneAt (s : State) (j : Nat) : Nat :=
  match s.tasks[j]? with
  | some t => dead t
  | none => 0

/-- The bookkeeping of the wait group: the counter is the number of goroutines
that have not returned, every goroutine that has returned has called
`wg.Done()` once and no other has, and there is one spawn per goroutine beside
the seed. -/
structure WgInv (s : State) : Prop where
  counter : s.wg = (tally live s.tasks : Int)
  doneOnce : ∀ j, doneCount j s.trace = doneAt s j
  doneAll : doneTotal s.trace = tally dead s.tasks
  spawned : s.tasks.length = 1 + spawnTotal s.trace

/-! ## Consistency of the history -/

/-- Whether a goroutine is inside `Set` past the initialisation of the map. -/
def pastMake : PC → Prop
  | .inSet .lookup _ _ => True
  | .inSet .lock _ _ => True
  | .inSet .store _ _ => True
  | .inSet .unlock _ _ => True
  | .inSet (.ret _) _ _ => True
  | _ => False

/-- Whether a goroutine is about to execute `h.history_map = make(...)`. -/
def atMake : PC → Prop
  | .inSet .make _ _ => True
  | _ => False

/-- A goroutine has been stopped by an abort of the program. -/
def crashed (s : State) : Prop := ∃ t ∈ s.tasks, t.pc = .aborted

/-- Consistency of the history with the goroutines: a goroutine past the
initialisation sees a map; a goroutine about to initialise sees the nil map and
is the only goroutine. -/
structure HistInv (s : State) : Prop where
  made : ∀ (j : Nat) (t : Task), s.tasks[j]? = some t → pastMake t.pc → s.history.history_map ≠ none
  unmade : ∀ (j : Nat) (t : Task), s.tasks[j]? = some t → atMake t.pc → s.history.history_map = none
  alone : s.history.history_map = none → s.tasks.length = 1

/-- The seed goroutine is number 0. -/
def SeedFirst (seed : String) (depth : Int) (s : State) : Prop :=
  ∃ pc, s.tasks[0]? = some ⟨seed, depth, pc⟩

/-- The steps of `Crawl` that abort the program: goroutine `t` of index `i`,
seeing history `h`, reads the map while the mutex is held, stores into the nil
map, or unlocks the free mutex. -/
inductive Fatal (i : Nat) : fetchHistory → Task → Effect → Prop
  | read (m url d u rest) :
      Fatal i ⟨true, m⟩ ⟨url, d, .inSet .lookup u rest⟩ ⟨⟨true, m⟩, .aborted, 0, [], [.fatal i]⟩
  | nilStore (b url d u rest) :
      Fatal i ⟨b, none⟩ ⟨url, d, .inSet .store u rest⟩ ⟨⟨b, none⟩, .aborted, 0, [], [.fatal i]⟩
  | unlock (m url d u rest) :
      Fatal i ⟨false, m⟩ ⟨url, d, .inSet .unlock u rest⟩ ⟨⟨false, m⟩, .aborted, 0, [], [.fatal i]⟩

/-! ## One goroutine running on alone -/

/-- The effect of a step with effect `e1` followed by a step with effect `e2`
of the same goroutine. -/
def Effect.andThen (e1 e2 : Effect) : Effect :=
  ⟨e2.history, e2.pc, e1.wgDelta + e2.wgDelta, e1.children ++ e2.children,
    e1.events ++ e2.events⟩

/-- The accumulated effect of `n` further scheduled steps of the goroutine of
index `i` with arguments `url` and `depth`, no other goroutine moving; an entry
at which the goroutine cannot move is skipped. -/
def solo (f : Fetcher) (i : Nat) (url : String) (depth : Int) : Nat → Effect → Effect
  | 0, e => e
  | n + 1, e =>
      match Crawl f e.history i ⟨url, depth, e.pc⟩ with
      | none => solo f i url depth n e
      | some e1 => solo f i url depth n (e.andThen e1)

/-- The first occurrences of the elements of a list, in order. -/
def firstOccs : List String → List String
  | [] => []
  | u :: l => u :: (firstOccs l).filter (fun v => v ≠ u)

/-- The loop of lines 29-36 run without interference, by whole calls of `Set`:
the history it leaves, the goroutines it starts and the events it emits, for
the goroutine of index `i` and depth `d`. -/
def loopResult (i : Nat) (d : Int) :
    fetchHistory → List String → fetchHistory × List Task × List Event
  | h, [] => (h, [], [])
  | h, u :: rest =>
      match Set h u with
      | none => (h, [], [])
      | some (h1, some msg) =>
          let r := loopResult i d h1 rest
          (r.1, r.2.1, [.setCall i u, .setRet i u (some msg)] ++ r.2.2)
      | some (h1, none) =>
          let r := loopResult i d h1 rest
          (r.1, ⟨u, d - 1, .pending⟩ :: r.2.1,
            [.setCall i u, .setRet i u none, .spawn i u (d - 1)] ++ r.2.2)

/-- The spawns of a trace, in order: URL and depth of each goroutine started. -/
def spawnsOf (tr : List Event) : List (String × Int) :=
  tr.filterMap (fun e => match e with | .spawn _ u d => some (u, d) | _ => none)

/-- The URLs passed to `Set` in a trace, in order. -/
def setCallsOf (tr : List Event) : List String :=
  tr.filterMap (fun e => match e with | .setCall _ u => some u | _ => none)

/-! ## Steps with atomic `Set` -/

/-- The relation `AMove f i h t e` lists the steps of `Crawl` when every call of
`Set` is one step: as `Move`, but a goroutine at the head of the loop runs
`history.Set(u)` as a whole. -/
inductive AMove (f : Fetcher) (i : Nat) : fetchHistory → Task → Effect → Prop
  | baseCase (h url d) (hd : d ≤ 0) :
      AMove f i h ⟨url, d, .pending⟩ ⟨h, .completed, -1, [], [.done i]⟩
  | callFetch (h url d) (hd : 0 < d) :
      AMove f i h ⟨url, d, .pending⟩ ⟨h, .fetching, 0, [], [.fetch i url]⟩
  | fetchErr (h url d msg) (hf : f url = .err msg) :
      AMove f i h ⟨url, d, .fetching⟩ ⟨h, .failed, 0, [], [.print i (.error msg)]⟩
  | fetchOk (h url d body urls) (hf : f url = .ok body urls) :
      AMove f i h ⟨url, d, .fetching⟩ ⟨h, .expanding urls, 0, [], [.print i (.found url body)]⟩
  | errReturn (h url d) :
      AMove f i h ⟨url, d, .failed⟩ ⟨h, .completed, -1, [], [.done i]⟩
  | loopEnd (h url d) :
      AMove f i h ⟨url, d, .expanding []⟩ ⟨h, .completed, -1, [], [.done i]⟩
  | wholeSet (h url d u rest h1 r) (hs : Set h u = some (h1, r)) :
      AMove f i h ⟨url, d, .expanding (u :: rest)⟩
        ⟨h1, .inSet (.ret r) u rest, 0, [], [.setCall i u, .setRet i u r]⟩
  | skip (h url d msg u rest) :
      AMove f i h ⟨url, d, .inSet (.ret (some msg)) u rest⟩ ⟨h, .expanding rest, 0, [], []⟩
  | spawn (h url d u rest) :
      AMove f i h ⟨url, d, .inSet (.ret none) u rest⟩
        ⟨h, .expanding rest, 1, [⟨u, d - 1, .pending⟩], [.spawn i u (d - 1)]⟩

/-- The accumulated effect of `finishSet`. -/
def finishEff (f : Fetcher) (i : Nat) (url : String) (depth : Int) : Nat → Effect → Effect
  | 0, e => e
  | n + 1, e =>
      if midSetPC e.pc then
        match Crawl f e.history i ⟨url, depth, e.pc⟩ with
        | some e1 => finishEff f i url depth n (e.andThen e1)
        | none => e
      else e

/-- Between atomic steps the mutex is free and no goroutine is inside `Set`. -/
structure AtomInv (s : State) : Prop where
  free : s.history.locked = false
  outside : ∀ (j : Nat) (t : Task), s.tasks[j]? = some t → midSetPC t.pc = false

/-- Weight 1 for a goroutine crawling `u`. -/
def urlIs (u : String) (t : Task) : Nat := if t.url = u then 1 else 0

/-- Weight 1 for a goroutine whose call `Set(u)` returned nil and that has not
yet started the goroutine for `u`. -/
def retNoneFor (u : String) (t : Task) : Nat :=
  match t.pc with
  | .inSet (.ret none) v _ => if v = u then 1 else 0
  | _ => 0

/-- Weight 1 for a goroutine whose call of `Set` returned nil and that has not
yet started the new goroutine. -/
def retNoneAny (t : Task) : Nat :=
  match t.pc with
  | .inSet (.ret none) _ _ => 1
  | _ => 0

/-- Weight 1 for a goroutine crawling `u` that is past the depth test. -/
def startedIs (u : String) (t : Task) : Nat := if t.url = u ∧ t.pc ≠ .pending then 1 else 0

/-- The bookkeeping of a run with atomic `Set` and seed URL `seed`: beside the
seed there is one goroutine, started or about to be started, per recorded URL;
every recorded URL has seen one successful `Set`; every spawn follows a
successful `Set`; `Fetch` is invoked at most once per goroutine. -/
structure AtomCount (seed : String) (s : State) : Prop where
  perUrl : ∀ u, tally (urlIs u) s.tasks + tally (retNoneFor u) s.tasks
      = (if u = seed then 1 else 0) + (if u ∈ s.history.keys then 1 else 0)
  fetched : ∀ u, fetchCount u s.trace ≤ tally (startedIs u) s.tasks
  size : s.tasks.length + tally retNoneAny s.tasks = 1 + s.history.keys.card
  setOk : ∀ u, setOkCount u s.trace = if u ∈ s.history.keys then 1 else 0
  spawns : ∀ u, spawnCount u s.trace + (if u = seed then 1 else 0) = tally (urlIs u) s.tasks

/-! ## Deep crawls -/

/-- The links of a page: the URLs returned by `Fetch`, none on an error. -/
def links (f : Fetcher) (u : String) : List String :=
  match f u with
  | .ok _ urls => urls
  | .err _ => []

/-- The URLs that can be reached from the seed by following links. -/
inductive Reach (f : Fetcher) (seed : String) : String → Prop
  | seed : Reach f seed seed
  | link (u v : String) (hu : Reach f seed u) (hv : v ∈ links f u) : Reach f seed v

/-- A set of URLs that contains every link of each of its pages. -/
abbrev linkClosed (f : Fetcher) (U : Finset String) : Prop :=
  ∀ u ∈ U, ∀ v ∈ links f u, v ∈ U

/-- The links a goroutine still has to pass to `Set`, the current one included. -/
def pcUrls : PC → List String
  | .expanding rest => rest
  | .inSet _ u rest => u :: rest
  | _ => []

/-- The URL whose `Set` call has found it present or has stored it. -/
def pcMarked : PC → Option String
  | .inSet .unlock u _ => some u
  | .inSet (.ret _) u _ => some u
  | _ => none

/-- The depth budget of a goroutine against the set `K` of recorded URLs: the
depth plus the number of recorded URLs is at least the seed depth, and one
more while the goroutine is about to start a goroutine for a URL it found
absent. -/
def budgetOk (depth : Int) (K : Finset String) (t : Task) : Prop :=
  match t.pc with
  | .inSet .lock u _ => depth + 1 ≤ t.depth + ((insert u K).card : Int)
  | .inSet .store u _ => depth + 1 ≤ t.depth + ((insert u K).card : Int)
  | .inSet .unlock _ _ => depth + 1 ≤ t.depth + (K.card : Int)
  | .inSet (.ret none) _ _ => depth + 1 ≤ t.depth + (K.card : Int)
  | _ => depth ≤ t.depth + (K.card : Int)

/-- What holds of every goroutine of a run, given the recorded URLs `K` and the
trace `tr`. -/
structure TaskOk (f : Fetcher) (seed : String) (depth : Int) (K : Finset String)
    (tr : List Event) (t : Task) : Prop where
  reach : Reach f seed t.url
  sub : ∀ v ∈ pcUrls t.pc, v ∈ links f t.url
  covered : t.pc = .pending ∨ t.pc = .fetching ∨ t.depth ≤ 0 ∨
    ∀ v ∈ links f t.url, v ∈ pcUrls t.pc ∨ v ∈ K
  marked : ∀ u, pcMarked t.pc = some u → u ∈ K
  budget : budgetOk depth K t
  fetched : t.pc ≠ .pending → 0 < t.depth → t.url ∈ fetchedSet tr

/-- Whether a goroutine has stored `v` and not yet started the goroutine for
it. -/
def aboutToSpawn (v : String) : PC → Prop
  | .inSet .unlock u _ => u = v
  | .inSet (.ret none) u _ => u = v
  | _ => False

/-- What holds of every state of a run. -/
structure DeepInv (f : Fetcher) (seed : String) (depth : Int) (s : State) : Prop where
  tasksOk : ∀ (j : Nat) (t : Task), s.tasks[j]? = some t →
    TaskOk f seed depth s.history.keys s.trace t
  keysReach : ∀ v ∈ s.history.keys, Reach f seed v
  keysTask : ∀ v ∈ s.history.keys,
    ∃ (j : Nat) (t : Task), s.tasks[j]? = some t ∧ (t.url = v ∨ aboutToSpawn v t.pc)
  fetchedTask : ∀ u ∈ fetchedSet s.trace, ∃ (j : Nat) (t : Task), s.tasks[j]? = some t ∧ t.url = u

/-! # Theorems -/

/-! ## The steps of a goroutine, case by case: lemmas -/

theorem Move.of_Crawl {f : Fetcher} {h : fetchHistory} {i : Nat} {t : Task} {e : Effect}
    (hc : Crawl f h i t = some e) : Move f i h t e ∨ Fatal i h t e := by
  obtain ⟨url, d, pc⟩ := t
  obtain ⟨b, m⟩ := h
  cases pc with
  | pending =>
      by_cases hd : d ≤ 0
      · simp [Crawl, hd] at hc; subst hc; exact .inl (.baseCase _ _ _ hd)
      · simp [Crawl, hd] at hc; subst hc; exact .inl (.callFetch _ _ _ (by omega))
  | fetching =>
      cases hf : f url with
      | ok body urls => simp [Crawl, hf] at hc; subst hc; exact .inl (.fetchOk _ _ _ _ _ hf)
      | err msg => simp [Crawl, hf] at hc; subst hc; exact .inl (.fetchErr _ _ _ _ hf)
  | failed => simp [Crawl] at hc; subst hc; exact .inl (.errReturn _ _ _)
  | expanding urls =>
      cases urls with
      | nil => simp [Crawl] at hc; subst hc; exact .inl (.loopEnd _ _ _)
      | cons u rest => simp [Crawl] at hc; subst hc; exact .inl (.callSet _ _ _ _ _)
  | completed => simp [Crawl] at hc
  | aborted => simp [Crawl] at hc
  | inSet sp u rest =>
      cases sp with
      | entry =>
          cases m with
          | none => simp [Crawl, setStep] at hc; subst hc; exact .inl (.sawNil _ _ _ _ _)
          | some m => simp [Crawl, setStep] at hc; subst hc; exact .inl (.sawMap _ _ _ _ _ _)
      | make => simp [Crawl, setStep] at hc; subst hc; exact .inl (.makeMap _ _ _ _ _)
      | lookup =>
          cases b with
          | true => simp [Crawl, setStep] at hc; subst hc; exact .inr (.read _ _ _ _ _)
          | false =>
              by_cases hu : u ∈ (fetchHistory.mk false m).keys
              · simp [Crawl, setStep, hu] at hc; subst hc
                exact .inl (.present _ _ _ _ _ hu rfl)
              · simp [Crawl, setStep, hu] at hc; subst hc
                exact .inl (.absent _ _ _ _ _ hu rfl)
      | lock =>
          cases b with
          | true => simp [Crawl, setStep] at hc
          | false => simp [Crawl, setStep] at hc; subst hc; exact .inl (.lock _ _ _ _ _)
      | store =>
          cases m with
          | none => simp [Crawl, setStep] at hc; subst hc; exact .inr (.nilStore _ _ _ _ _)
          | some m => simp [Crawl, setStep] at hc; subst hc; exact .inl (.store _ _ _ _ _ _)
      | unlock =>
          cases b with
          | false => simp [Crawl, setStep] at hc; subst hc; exact .inr (.unlock _ _ _ _ _)
          | true => simp [Crawl, setStep] at hc; subst hc; exact .inl (.unlock _ _ _ _ _)
      | ret r =>
          cases r with
          | none => simp [Crawl] at hc; subst hc; exact .inl (.spawn _ _ _ _ _)
          | some msg => simp [Crawl] at hc; subst hc; exact .inl (.skip _ _ _ _ _ _)
      | fatal => simp [Crawl, setStep] at hc

theorem Move.to_Crawl {f : Fetcher} {h : fetchHistory} {i : Nat} {t : Task} {e : Effect}
    (hm : Move f i h t e) : Crawl f h i t = some e := by
  cases hm <;> simp [Crawl, setStep, *]

theorem Move.alive {f : Fetcher} {h : fetchHistory} {i : Nat} {t : Task} {e : Effect}
    (hm : Move f i h t e) : e.pc ≠ .aborted ∧ t.pc ≠ .aborted := by
  cases hm <;> simp

theorem Fatal.aborts {h : fetchHistory} {i : Nat} {t : Task} {e : Effect}
    (hm : Fatal i h t e) :
    e = ⟨h, .aborted, 0, [], [.fatal i]⟩ ∧ t.pc ≠ .completed ∧ t.pc ≠ .aborted := by
  cases hm <;> simp

/-! ## Schedules -/

theorem step_eq_some {f : Fetcher} {s s1 : State} {i : Nat} (h : step f s i = some s1) :
    ∃ t e, s.tasks[i]? = some t ∧
      ((Move f i s.history t e ∧ s1 = s.apply i t e) ∨
       (Fatal i s.history t e ∧ s1 = (s.apply i t e).abort)) := by
  unfold step at h
  cases ht : s.tasks[i]? with
  | none => simp [ht] at h
  | some t =>
      simp only [ht, Option.map_eq_some'] at h
      obtain ⟨e, he, rfl⟩ := h
      refine ⟨t, e, rfl, ?_⟩
      rcases Move.of_Crawl he with hm | hm
      · left
        simp [hm.alive.1, hm]
      · right
        have hp : e.pc = .aborted := by rw [hm.aborts.1]
        simp [hp, hm]

theorem step_of_Crawl {f : Fetcher} {s : State} {i : Nat} {t : Task} {e : Effect}
    (ht : s.tasks[i]? = some t) (hc : Crawl f s.history i t = some e) (ha : e.pc ≠ .aborted) :
    step f s i = some (s.apply i t e) := by
  simp [step, ht, hc, ha]

theorem step_of_Move {f : Fetcher} {s : State} {i : Nat} {t : Task} {e : Effect}
    (ht : s.tasks[i]? = some t) (hm : Move f i s.history t e) :
    step f s i = some (s.apply i t e) :=
  step_of_Crawl ht hm.to_Crawl hm.alive.1

@[simp] theorem run_nil (f : Fetcher) (s : State) : run f s [] = s := rfl

theorem run_cons (f : Fetcher) (s : State) (i : Nat) (l : List Nat) :
    run f s (i :: l) = run f ((step f s i).getD s) l := rfl

theorem run_append (f : Fetcher) (s : State) (l1 l2 : List Nat) :
    run f s (l1 ++ l2) = run f (run f s l1) l2 := by
  simp [run, List.foldl_append]

/-- A property that holds initially and is kept by every step holds after every
schedule. -/
theorem run_induction {f : Fetcher} (P : State → Prop)
    (hstep : ∀ s i s1, P s → step f s i = some s1 → P s1) :
    ∀ (l : List Nat) (s : State), P s → P (run f s l) := by
  intro l
  induction l with
  | nil => intro s hs; exact hs
  | cons i l ih =>
      intro s hs
      rw [run_cons]
      apply ih
      cases h : step f s i with
      | none => exact hs
      | some s1 => exact hstep s i s1 hs h

/-! ## `Set` run on its own -/

/-- C2. `Set`, called on a history whose mutex is free, returns; it returns nil
exactly when the URL was absent; afterwards the URL is present, the membership
of every other URL is as before, no URL has been removed, a failed call leaves
the set of URLs as it was, and the mutex is free again. -/
theorem C2_Set_marks_once (h : fetchHistory) (u : String) (hfree : h.locked = false) :
    ∃ h1 r, Set h u = some (h1, r) ∧ (r = none ↔ u ∉ h.keys) ∧ u ∈ h1.keys ∧
      (∀ v, v ≠ u → (v ∈ h1.keys ↔ v ∈ h.keys)) ∧ (∀ v, v ∈ h.keys → v ∈ h1.keys) ∧
      (r ≠ none → r = some (alreadyVisited u) ∧ h1.keys = h.keys) ∧ h1.locked = false := by
  obtain ⟨l, m⟩ := h
  simp only at hfree
  subst hfree
  cases m with
  | none =>
      refine ⟨⟨false, some {u}⟩, none, ?_⟩
      simp [Set, fetchHistory.keys]
  | some m =>
      by_cases hu : u ∈ m
      · refine ⟨⟨false, some m⟩, some (alreadyVisited u), ?_⟩
        simp [Set, fetchHistory.keys, hu]
      · refine ⟨⟨false, some (insert u m)⟩, none, ?_⟩
        simp [Set, fetchHistory.keys, hu]
        exact ⟨fun v h1 h2 => absurd h2 h1, fun v hv => Or.inr hv⟩

/-- Witness for C2: the first call on the zero value of `fetchHistory`. -/
theorem C2_Set_marks_once_witness :
    ∃ h1 r, Set fetchHistory.zero "A" = some (h1, r) ∧ (r = none ↔ "A" ∉ fetchHistory.zero.keys) ∧
      "A" ∈ h1.keys ∧
      (∀ v, v ≠ "A" → (v ∈ h1.keys ↔ v ∈ fetchHistory.zero.keys)) ∧
      (∀ v, v ∈ fetchHistory.zero.keys → v ∈ h1.keys) ∧
      (r ≠ none → r = some (alreadyVisited "A") ∧ h1.keys = fetchHistory.zero.keys) ∧
      h1.locked = false :=
  C2_Set_marks_once fetchHistory.zero "A" rfl

/-! ## Overlapping calls of `Set` -/

set_option maxRecDepth 100000 in
/-- C3, evaluated on the code.  The membership test of `Set` runs before the
mutex is taken.  (1) Two overlapping calls `Set("A")` on the zero history both
find `"A"` absent and both return nil.  (2) Two overlapping first calls
`Set("A")` and `Set("B")` both find the map nil; the second `make` replaces the
map in which `"A"` was stored, so `"A"` is absent after both calls returned
nil.  (3) In a crawl of `twoParents` the goroutines of `A` and `B` both mark
`X`, and `X` is fetched twice. -/
theorem C3_overlapping_Set_calls_both_succeed :
    SetSys.run ⟨fetchHistory.zero, [⟨"A", .entry⟩, ⟨"A", .entry⟩]⟩ [0, 0, 0, 1, 1, 0, 0, 0, 1, 1, 1]
        = ⟨⟨false, some {"A"}⟩, [⟨"A", .ret none⟩, ⟨"A", .ret none⟩]⟩ ∧
    SetSys.run ⟨fetchHistory.zero, [⟨"A", .entry⟩, ⟨"B", .entry⟩]⟩ [0, 1, 0, 0, 0, 0, 0, 1, 1, 1, 1, 1]
        = ⟨⟨false, some {"B"}⟩, [⟨"A", .ret none⟩, ⟨"B", .ret none⟩]⟩ ∧
    (let s := run twoParents (mainStart "S" 3)
        (List.replicate 18 0 ++ List.replicate 5 1 ++ List.replicate 5 2 ++
          List.replicate 5 1 ++ List.replicate 5 2 ++ List.replicate 3 3 ++ List.replicate 3 4);
      fetchCount "X" s.trace = 2 ∧ s.wg = 0 ∧ s.tasks.map Task.pc = List.replicate 5 PC.completed) := by
  decide

/-! ## Lists of goroutines under a step -/

@[simp] theorem tally_nil (g : Task → Nat) : tally g [] = 0 := rfl

@[simp] theorem tally_cons (g : Task → Nat) (t : Task) (l : List Task) :
    tally g (t :: l) = g t + tally g l := by
  simp [tally]

@[simp] theorem tally_append (g : Task → Nat) (l1 l2 : List Task) :
    tally g (l1 ++ l2) = tally g l1 + tally g l2 := by
  simp [tally]

theorem tally_set (g : Task → Nat) :
    ∀ (l : List Task) (i : Nat) (t a : Task), l[i]? = some t →
      tally g (l.set i a) + g t = tally g l + g a := by
  intro l
  induction l with
  | nil => intro i t a h; simp at h
  | cons x l ih =>
      intro i t a h
      cases i with
      | zero =>
          simp at h
          subst h
          simp
          omega
      | succ i =>
          simp at h
          have := ih i t a h
          simp
          omega

theorem tally_apply (g : Task → Nat) {s : State} {i : Nat} {t : Task} (e : Effect)
    (ht : s.tasks[i]? = some t) :
    tally g (s.apply i t e).tasks + g t
      = tally g s.tasks + g ⟨t.url, t.depth, e.pc⟩ + tally g e.children := by
  have := tally_set g s.tasks i t ⟨t.url, t.depth, e.pc⟩ ht
  simp [State.apply]
  omega

theorem tally_pos_iff (g : Task → Nat) (l : List Task) :
    0 < tally g l ↔ ∃ t ∈ l, 0 < g t := by
  induction l with
  | nil => simp
  | cons x l ih =>
      simp only [tally_cons, List.mem_cons, exists_eq_or_imp]
      rw [← ih]
      omega

theorem tally_eq_zero_iff (g : Task → Nat) (l : List Task) :
    tally g l = 0 ↔ ∀ t ∈ l, g t = 0 := by
  induction l with
  | nil => simp
  | cons x l ih =>
      simp only [tally_cons, List.mem_cons, forall_eq_or_imp]
      rw [← ih]
      omega

theorem lt_length_of_getElem? {l : List Task} {i : Nat} {t : Task} (h : l[i]? = some t) :
    i < l.length := by
  by_contra hc
  rw [List.getElem?_eq_none (by omega)] at h
  cases h

theorem mem_of_getElem? {l : List Task} {i : Nat} {t : Task} (h : l[i]? = some t) : t ∈ l :=
  List.mem_iff_getElem?.mpr ⟨i, h⟩

theorem getElem?_apply {s : State} {i : Nat} {t : Task} (e : Effect)
    (ht : s.tasks[i]? = some t) (j : Nat) :
    (s.apply i t e).tasks[j]? =
      if j = i then some ⟨t.url, t.depth, e.pc⟩
      else if j < s.tasks.length then s.tasks[j]?
      else e.children[j - s.tasks.length]? := by
  have hi := lt_length_of_getElem? ht
  simp only [State.apply]
  by_cases hji : j = i
  · subst hji
    simp [List.getElem?_append, hi]
  · by_cases hj : j < s.tasks.length
    · simp [List.getElem?_append, hj, hji, List.getElem?_set, Ne.symm hji]
    · simp [hj, hji]
      rw [List.getElem?_append_right (by simp; omega)]
      simp

theorem length_apply (s : State) (i : Nat) (t : Task) (e : Effect) :
    (s.apply i t e).tasks.length = s.tasks.length + e.children.length := by
  simp [State.apply]

/-! ## The wait group -/

theorem liveCount_eq_tally (s : State) : liveCount s = tally live s.tasks := by
  unfold liveCount
  induction s.tasks with
  | nil => rfl
  | cons t l ih =>
      by_cases h : t.pc = .completed <;> simp [List.countP_cons, live, h] at ih ⊢ <;> omega

theorem live_add_dead (l : List Task) : tally live l + tally dead l = l.length := by
  induction l with
  | nil => rfl
  | cons t l ih =>
      by_cases h : t.pc = .completed <;> simp [live, dead, h] <;> omega

theorem allDone_iff_tally (s : State) : allDone s ↔ tally live s.tasks = 0 := by
  rw [tally_eq_zero_iff]
  unfold allDone
  constructor
  · intro h t ht
    simp [live, h t ht]
  · intro h t ht
    have := h t ht
    by_contra hc
    simp [live, hc] at this

theorem doneAt_apply {s : State} {i : Nat} {t : Task} (e : Effect)
    (ht : s.tasks[i]? = some t) (hch : ∀ c ∈ e.children, c.pc ≠ .completed) (j : Nat) :
    doneAt (s.apply i t e) j = if j = i then dead ⟨t.url, t.depth, e.pc⟩ else doneAt s j := by
  unfold doneAt
  rw [getElem?_apply e ht j]
  by_cases hji : j = i
  · simp [hji]
  · by_cases hj : j < s.tasks.length
    · simp [hji, hj]
    · simp only [hji, hj, if_false]
      rw [List.getElem?_eq_none (l := s.tasks) (by omega)]
      cases hc : e.children[j - s.tasks.length]? with
      | none => rfl
      | some c =>
          have := hch c (List.mem_iff_getElem?.mpr ⟨_, hc⟩)
          simp [dead, this]

theorem doneCount_append (j : Nat) (l1 l2 : List Event) :
    doneCount j (l1 ++ l2) = doneCount j l1 + doneCount j l2 := by
  simp [doneCount]

theorem doneTotal_append (l1 l2 : List Event) :
    doneTotal (l1 ++ l2) = doneTotal l1 + doneTotal l2 := by
  simp [doneTotal]

theorem spawnTotal_append (l1 l2 : List Event) :
    spawnTotal (l1 ++ l2) = spawnTotal l1 + spawnTotal l2 := by
  simp [spawnTotal]

theorem WgInv_start (seed : String) (depth : Int) : WgInv (mainStart seed depth) := by
  refine ⟨by simp [mainStart, live], ?_, by simp [mainStart, doneTotal, dead],
    by simp [mainStart, spawnTotal]⟩
  intro j
  cases j <;> simp [mainStart, doneCount, doneAt, dead]

/-- The accounting of one step: the counter changes by the number of
goroutines started minus one if the goroutine returns; `wg.Done()` is logged
exactly by a returning step and a spawn exactly with each goroutine started. -/
theorem Move.accounting {f : Fetcher} {i : Nat} {h : fetchHistory} {t : Task} {e : Effect}
    (hm : Move f i h t e ∨ Fatal i h t e) :
    dead t = 0 ∧ live t = 1 ∧
    live ⟨t.url, t.depth, e.pc⟩ + dead ⟨t.url, t.depth, e.pc⟩ = 1 ∧
    doneTotal e.events = dead ⟨t.url, t.depth, e.pc⟩ ∧
    spawnTotal e.events = e.children.length ∧
    e.wgDelta = (e.children.length : Int) - (dead ⟨t.url, t.depth, e.pc⟩ : Int) ∧
    tally live e.children = e.children.length ∧ tally dead e.children = 0 ∧
    (∀ c ∈ e.children, c.pc ≠ .completed) ∧
    (∀ j, doneCount j e.events = if j = i then dead ⟨t.url, t.depth, e.pc⟩ else 0) := by
  rcases hm with hm | hm
  · cases hm <;>
      simp [dead, live, doneTotal, spawnTotal, doneCount] <;>
      intro j <;> by_cases hj : j = i <;> simp [hj] <;> exact fun h => hj h.symm
  · cases hm <;> simp [dead, live, doneTotal, spawnTotal, doneCount]

theorem WgInv_apply {f : Fetcher} {s : State} {i : Nat} {t : Task} {e : Effect}
    (hinv : WgInv s) (ht : s.tasks[i]? = some t) (hm : Move f i s.history t e ∨ Fatal i s.history t e) :
    WgInv (s.apply i t e) := by
  obtain ⟨hw, hd, hda, hsp⟩ := hinv
  have hlive := tally_apply live e ht
  have hdead := tally_apply dead e ht
  have hlen := length_apply s i t e
  obtain ⟨a1, a2, a3, a4, a5, a6, a7, a8, a9, a10⟩ := Move.accounting hm
  have keyT : doneTotal (s.apply i t e).trace = doneTotal s.trace + doneTotal e.events :=
    doneTotal_append _ _
  have keyS : spawnTotal (s.apply i t e).trace = spawnTotal s.trace + spawnTotal e.events :=
    spawnTotal_append _ _
  have hwg : (s.apply i t e).wg = s.wg + e.wgDelta := rfl
  refine ⟨?_, ?_, ?_, ?_⟩
  · omega
  · intro j
    have hdj := hd j
    have key : doneCount j (s.apply i t e).trace = doneCount j s.trace + doneCount j e.events :=
      doneCount_append j _ _
    rw [key, doneAt_apply e ht a9 j, a10 j, hdj]
    by_cases hji : j = i
    · subst hji
      simp [doneAt, ht, a1]
    · simp [hji]
  · omega
  · omega

theorem live_kill (t : Task) : live t.kill = live t := by
  unfold Task.kill live
  by_cases h : t.pc = .completed <;> simp [h]

theorem dead_kill (t : Task) : dead t.kill = dead t := by
  unfold Task.kill dead
  by_cases h : t.pc = .completed <;> simp [h]

theorem tally_map_kill (g : Task → Nat) (hg : ∀ t, g t.kill = g t) (l : List Task) :
    tally g (l.map Task.kill) = tally g l := by
  induction l with
  | nil => rfl
  | cons t l ih => simp [hg, ih]

/-- An abort of the program leaves the bookkeeping of the wait group as it
is. -/
theorem WgInv_abort {s : State} (hinv : WgInv s) : WgInv s.abort := by
  obtain ⟨hw, hd, hda, hsp⟩ := hinv
  refine ⟨?_, ?_, ?_, ?_⟩
  · simpa [State.abort, tally_map_kill live live_kill] using hw
  · intro j
    rw [show s.abort.trace = s.trace from rfl, hd j]
    unfold doneAt
    simp only [State.abort, List.getElem?_map]
    cases s.tasks[j]? with
    | none => rfl
    | some t => simp [dead_kill]
  · simpa [State.abort, tally_map_kill dead dead_kill] using hda
  · simpa [State.abort] using hsp

theorem WgInv_step {f : Fetcher} {s s1 : State} {i : Nat} (hinv : WgInv s)
    (h : step f s i = some s1) : WgInv s1 := by
  obtain ⟨t, e, ht, hm | hm⟩ := step_eq_some h
  · rw [hm.2]
    exact WgInv_apply hinv ht (.inl hm.1)
  · rw [hm.2]
    exact WgInv_abort (WgInv_apply (f := f) hinv ht (.inr hm.1))

theorem WgInv_run (f : Fetcher) (seed : String) (depth : Int) (l : List Nat) :
    WgInv (run f (mainStart seed depth) l) :=
  run_induction WgInv (fun _ _ _ hs h => WgInv_step hs h) l _ (WgInv_start seed depth)

/-- C4. Every step of `Crawl` that returns runs `wg.Done()` once and lowers the
counter by one, on each of the three exit paths (`depth <= 0`, fetch error, end
of the loop); every step that starts a goroutine raises the counter by one; no
other step touches the counter.  Hence in every state of every run started as
`main` does, the counter equals the number of goroutines that have not
returned, is not negative, is zero exactly when every goroutine has returned,
equals one plus the spawns minus the `wg.Done()` calls, and goroutine `j` has
called `wg.Done()` once if it has returned and not at all otherwise. -/
theorem C4_wait_group_counts_live_goroutines (f : Fetcher) (seed : String) (depth : Int)
    (sched : List Nat) :
    (∀ h i url (n : Nat), Crawl f h i ⟨url, -(n : Int), .pending⟩
        = some ⟨h, .completed, -1, [], [.done i]⟩) ∧
    (∀ h i url d, Crawl f h i ⟨url, d, .failed⟩ = some ⟨h, .completed, -1, [], [.done i]⟩) ∧
    (∀ h i url d, Crawl f h i ⟨url, d, .expanding []⟩
        = some ⟨h, .completed, -1, [], [.done i]⟩) ∧
    (∀ h i url d u rest, Crawl f h i ⟨url, d, .inSet (.ret none) u rest⟩
        = some ⟨h, .expanding rest, 1, [⟨u, d - 1, .pending⟩], [.spawn i u (d - 1)]⟩) ∧
    (∀ h i t e, Crawl f h i t = some e →
        t.pc ≠ .completed ∧
        doneTotal e.events = (if e.pc = .completed then 1 else 0) ∧
        spawnTotal e.events = e.children.length ∧
        e.wgDelta = (e.children.length : Int) - (if e.pc = .completed then 1 else 0)) ∧
    (let s := run f (mainStart seed depth) sched
     s.wg = (liveCount s : Int) ∧ 0 ≤ s.wg ∧ (s.wg = 0 ↔ allDone s) ∧
     (∀ j, doneCount j s.trace
        = if (∃ t, s.tasks[j]? = some t ∧ t.pc = .completed) then 1 else 0) ∧
     s.wg = 1 + (spawnTotal s.trace : Int) - (doneTotal s.trace : Int) ∧
     s.tasks.length = 1 + spawnTotal s.trace) := by
  refine ⟨?_, ?_, ?_, ?_, ?_, ?_⟩
  · intro h i url n
    simp [Crawl]
  · intro h i url d
    simp [Crawl]
  · intro h i url d
    simp [Crawl]
  · intro h i url d u rest
    simp [Crawl]
  · intro h i t e he
    obtain ⟨a1, _, _, a4, a5, a6, _⟩ := Move.accounting (Move.of_Crawl he)
    refine ⟨?_, ?_, a5, ?_⟩
    · intro hc
      simp [dead, hc] at a1
    · rw [a4]
      simp [dead]
    · rw [a6]
      by_cases hc : e.pc = .completed <;> simp [dead, hc]
  · obtain ⟨hw, hd, hda, hsp⟩ := WgInv_run f seed depth sched
    have hld := live_add_dead (run f (mainStart seed depth) sched).tasks
    refine ⟨?_, ?_, ?_, ?_, ?_, hsp⟩
    · rw [liveCount_eq_tally]
      exact hw
    · omega
    · rw [allDone_iff_tally]
      omega
    · intro j
      rw [hd j]
      unfold doneAt
      cases hj : (run f (mainStart seed depth) sched).tasks[j]? with
      | none => simp
      | some t => by_cases hc : t.pc = .completed <;> simp [dead, hc]
    · omega

set_option maxRecDepth 100000 in
/-- Witness for C4: the seed goroutine of `cycleAB` with depth 0 returns at its
first step, calling `wg.Done()` once, and the counter is then zero. -/
theorem C4_wait_group_counts_live_goroutines_witness :
    (Crawl cycleAB fetchHistory.zero 0 ⟨"A", 0, .pending⟩
        = some ⟨fetchHistory.zero, .completed, -1, [], [.done 0]⟩) ∧
    (doneTotal [Event.done 0] = 1 ∧ spawnTotal [Event.done 0] = 0) ∧
    (run cycleAB (mainStart "A" 0) [0]).wg = 0 := by
  have h := C4_wait_group_counts_live_goroutines cycleAB "A" 0 [0]
  have h5 := h.2.2.2.2.1 fetchHistory.zero 0 ⟨"A", 0, .pending⟩
    ⟨fetchHistory.zero, .completed, -1, [], [.done 0]⟩ (by decide)
  refine ⟨by decide, ⟨by simpa using h5.2.1, by simpa using h5.2.2.1⟩, ?_⟩
  exact (h.2.2.2.2.2.2.2.1).mpr (by decide)

/-! ## Aborted runs -/

theorem getElem?_abort (s : State) (j : Nat) : s.abort.tasks[j]? = (s.tasks[j]?).map Task.kill := by
  simp [State.abort, List.getElem?_map]

theorem kill_aborted {t : Task} (h : t.pc = .aborted) : t.kill.pc = .aborted := by
  simp [Task.kill, h]

/-- A goroutine stopped by an abort cannot move. -/
theorem Crawl_aborted (f : Fetcher) (h : fetchHistory) (i : Nat) {t : Task}
    (ht : t.pc = .aborted ∨ t.pc = .completed) : Crawl f h i t = none := by
  rcases ht with ht | ht <;> simp [Crawl, ht]

/-- Once a goroutine has been stopped by an abort, it stays stopped. -/
theorem crashed_step {f : Fetcher} {s s1 : State} {i : Nat} (hc : crashed s)
    (h : step f s i = some s1) : crashed s1 := by
  obtain ⟨x, hx, hxa⟩ := hc
  obtain ⟨k, hk⟩ := List.mem_iff_getElem?.mp hx
  obtain ⟨t, e, ht, hm⟩ := step_eq_some h
  have hki : k ≠ i := by
    rintro rfl
    rw [ht] at hk
    cases hk
    rcases hm with hm | hm
    · exact hm.1.alive.2 hxa
    · exact hm.1.aborts.2.2 hxa
  have hkl := lt_length_of_getElem? hk
  have hap : (s.apply i t e).tasks[k]? = some x := by
    rw [getElem?_apply e ht k]
    simp [hki, hkl, hk]
  rcases hm with hm | hm
  · rw [hm.2]
    exact ⟨x, List.mem_iff_getElem?.mpr ⟨k, hap⟩, hxa⟩
  · rw [hm.2]
    refine ⟨x.kill, List.mem_iff_getElem?.mpr ⟨k, ?_⟩, kill_aborted hxa⟩
    rw [getElem?_abort, hap]
    rfl

/-- The state after a fatal step has a stopped goroutine. -/
theorem crashed_abort {s : State} {i : Nat} {t : Task} {e : Effect}
    (ht : s.tasks[i]? = some t) (he : e.pc = .aborted) : crashed (s.apply i t e).abort := by
  refine ⟨(Task.mk t.url t.depth e.pc).kill, List.mem_iff_getElem?.mpr ⟨i, ?_⟩,
    kill_aborted he⟩
  rw [getElem?_abort, getElem?_apply e ht i]
  simp

/-- A property of states that holds initially and is kept by every step that
does not abort the program holds after every schedule that has not aborted
it. -/
theorem run_alive_induction {f : Fetcher} (P : State → Prop)
    (hstep : ∀ s i t e, P s → s.tasks[i]? = some t → Move f i s.history t e →
      P (s.apply i t e)) :
    ∀ (l : List Nat) (s : State), crashed s ∨ P s → crashed (run f s l) ∨ P (run f s l) := by
  apply run_induction
  intro s i s1 hs h
  rcases hs with hs | hs
  · exact Or.inl (crashed_step hs h)
  · obtain ⟨t, e, ht, hm | hm⟩ := step_eq_some h
    · rw [hm.2]
      exact Or.inr (hstep s i t e hs ht hm.1)
    · rw [hm.2]
      exact Or.inl (crashed_abort ht (by rw [hm.1.aborts.1]))

theorem not_crashed_of_allDone {s : State} (h : allDone s) : ¬ crashed s := by
  rintro ⟨t, ht, hta⟩
  rw [h t ht] at hta
  cases hta

/-- A state in which every goroutine has returned or was stopped does not
change any more. -/
theorem run_stuck {f : Fetcher} {s : State}
    (h : ∀ t ∈ s.tasks, t.pc = .aborted ∨ t.pc = .completed) :
    ∀ l : List Nat, run f s l = s := by
  intro l
  induction l with
  | nil => rfl
  | cons i l ih =>
      rw [run_cons]
      have : step f s i = none := by
        unfold step
        cases ht : s.tasks[i]? with
        | none => rfl
        | some t => simp [Crawl_aborted f s.history i (h t (mem_of_getElem? ht))]
      rw [this]
      exact ih

/-! ## Consistency of the history -/

/-- What one step does to the map. -/
theorem Move.hist_facts {f : Fetcher} {i : Nat} {h : fetchHistory} {t : Task} {e : Effect}
    (hm : Move f i h t e) :
    (h.history_map ≠ none → e.history.history_map ≠ none) ∧
    (pastMake e.pc → pastMake t.pc ∨ e.history.history_map ≠ none) ∧
    (atMake e.pc → e.history.history_map = none) ∧
    (e.children ≠ [] → pastMake t.pc) := by
  cases hm <;> simp [pastMake, atMake]

/-- The goroutines started by a step are pending, for the URL being marked, one
level of depth below the goroutine that starts them. -/
theorem Move.children_facts {f : Fetcher} {i : Nat} {h : fetchHistory} {t : Task} {e : Effect}
    (hm : Move f i h t e) :
    ∀ c ∈ e.children, c.pc = .pending ∧ c.depth = t.depth - 1 ∧
      ∃ rest, t.pc = .inSet (.ret none) c.url rest := by
  cases hm <;> simp

theorem HistInv_start (seed : String) (depth : Int) : HistInv (mainStart seed depth) := by
  refine ⟨?_, ?_, by simp [mainStart]⟩
  · intro j t hj hp
    cases j <;> simp [mainStart] at hj
    subst hj
    simp [pastMake] at hp
  · intro j t hj hp
    rfl

theorem HistInv_apply {f : Fetcher} {s : State} {i : Nat} {t : Task} {e : Effect}
    (hinv : HistInv s) (ht : s.tasks[i]? = some t) (hm : Move f i s.history t e) :
    HistInv (s.apply i t e) := by
  obtain ⟨hma, hun, hal⟩ := hinv
  obtain ⟨f1, f2, f3, f4⟩ := hm.hist_facts
  have hch := hm.children_facts
  have hlen := length_apply s i t e
  have hi := lt_length_of_getElem? ht
  have hhist : (s.apply i t e).history = e.history := rfl
  refine ⟨?_, ?_, ?_⟩
  · intro j x hj hp
    rw [hhist]
    rw [getElem?_apply e ht j] at hj
    by_cases hji : j = i
    · simp only [hji, if_true, Option.some.injEq] at hj
      subst hj
      rcases f2 hp with h1 | h1
      · exact f1 (hma i t ht h1)
      · exact h1
    · by_cases hjl : j < s.tasks.length
      · simp only [hji, hjl, if_true, if_false] at hj
        exact f1 (hma j x hj hp)
      · simp only [hji, hjl, if_false] at hj
        have := (hch x (List.mem_iff_getElem?.mpr ⟨_, hj⟩)).1
        simp [this, pastMake] at hp
  · intro j x hj hp
    rw [hhist]
    rw [getElem?_apply e ht j] at hj
    by_cases hji : j = i
    · simp only [hji, if_true, Option.some.injEq] at hj
      subst hj
      exact f3 hp
    · by_cases hjl : j < s.tasks.length
      · simp only [hji, hjl, if_true, if_false] at hj
        have h1 := hal (hun j x hj hp)
        omega
      · simp only [hji, hjl, if_false] at hj
        have := (hch x (List.mem_iff_getElem?.mpr ⟨_, hj⟩)).1
        simp [this, atMake] at hp
  · intro hn
    rw [hhist] at hn
    have h0 : s.history.history_map = none := by
      by_contra hc
      exact f1 hc hn
    have hce : e.children = [] := by
      by_contra hc
      exact hma i t ht (f4 hc) h0
    rw [hlen, hal h0, hce]
    rfl

/-! ## The seed goroutine -/

theorem SeedFirst_start (seed : String) (depth : Int) :
    SeedFirst seed depth (mainStart seed depth) := ⟨.pending, rfl⟩

theorem SeedFirst_step {f : Fetcher} {seed : String} {depth : Int} {s s1 : State} {i : Nat}
    (hinv : SeedFirst seed depth s) (h : step f s i = some s1) : SeedFirst seed depth s1 := by
  obtain ⟨pc0, hfi⟩ := hinv
  obtain ⟨t, e, ht, hm⟩ := step_eq_some h
  have hap : ∃ pc, (s.apply i t e).tasks[0]? = some ⟨seed, depth, pc⟩ := by
    rw [getElem?_apply e ht 0]
    have hi := lt_length_of_getElem? ht
    by_cases h0 : 0 = i
    · subst h0
      rw [hfi] at ht
      cases ht
      exact ⟨e.pc, by simp⟩
    · have : 0 < s.tasks.length := by omega
      simp only [h0, this, if_true, if_false]
      exact ⟨pc0, hfi⟩
  rcases hm with hm | hm
  · rw [hm.2]
    exact hap
  · rw [hm.2]
    obtain ⟨pc, hpc⟩ := hap
    refine ⟨(Task.mk seed depth pc).kill.pc, ?_⟩
    rw [getElem?_abort, hpc]
    simp only [Option.map_some', Task.kill]
    split_ifs <;> rfl

theorem SeedFirst_run (f : Fetcher) (seed : String) (depth : Int) (l : List Nat) :
    SeedFirst seed depth (run f (mainStart seed depth) l) :=
  run_induction (SeedFirst seed depth) (fun _ _ _ hs h => SeedFirst_step hs h) l _
    (SeedFirst_start seed depth)

/-! ## One goroutine running on alone: lemmas -/

theorem set_self_of_getElem? : ∀ (l : List Task) (i : Nat) (t : Task), l[i]? = some t →
    l.set i t = l := by
  intro l
  induction l with
  | nil => intro i t h; rfl
  | cons x l ih =>
      intro i t h
      cases i with
      | zero => simp at h; simp [h]
      | succ i => simp at h; simp [ih i t h]

theorem apply_idle {s : State} {i : Nat} {t : Task} (ht : s.tasks[i]? = some t) :
    s.apply i t ⟨s.history, t.pc, 0, [], []⟩ = s := by
  obtain ⟨url, d, pc⟩ := t
  simp [State.apply, set_self_of_getElem? _ _ _ ht]

theorem apply_apply {s : State} {i : Nat} {t : Task} (e1 e2 : Effect)
    (ht : s.tasks[i]? = some t) :
    (s.apply i t e1).apply i ⟨t.url, t.depth, e1.pc⟩ e2 = s.apply i t (e1.andThen e2) := by
  have hi := lt_length_of_getElem? ht
  simp [State.apply, Effect.andThen, List.set_append_left, hi, List.set_set, add_assoc]

theorem step_apply {f : Fetcher} {s : State} {i : Nat} {t : Task} (e : Effect)
    (ht : s.tasks[i]? = some t) :
    step f (s.apply i t e) i
      = (Crawl f e.history i ⟨t.url, t.depth, e.pc⟩).map
          (fun e1 => if e1.pc = .aborted then (s.apply i t (e.andThen e1)).abort
            else s.apply i t (e.andThen e1)) := by
  unfold step
  rw [getElem?_apply e ht i]
  simp only [if_true]
  have : (s.apply i t e).history = e.history := rfl
  rw [this]
  cases Crawl f e.history i ⟨t.url, t.depth, e.pc⟩ with
  | none => rfl
  | some e1 => simp [apply_apply e e1 ht]

/-- A goroutine that has returned or was stopped stays as it is. -/
theorem solo_completed (f : Fetcher) (i : Nat) (url : String) (depth : Int) :
    ∀ (n : Nat) (e : Effect), e.pc = .completed ∨ e.pc = .aborted →
      solo f i url depth n e = e := by
  intro n
  induction n with
  | zero => intro e _; rfl
  | succ n ih =>
      intro e he
      rcases he with he | he <;> simp [solo, Crawl, he, ih]

/-- Scheduling goroutine `i` alone `n` times has the effect computed by `solo`,
when that effect does not abort the program. -/
theorem run_replicate_apply {f : Fetcher} {s : State} {i : Nat} {t : Task}
    (ht : s.tasks[i]? = some t) :
    ∀ (n : Nat) (e : Effect), (solo f i t.url t.depth n e).pc ≠ .aborted →
      run f (s.apply i t e) (List.replicate n i) = s.apply i t (solo f i t.url t.depth n e) := by
  intro n
  induction n with
  | zero => intro e _; rfl
  | succ n ih =>
      intro e hne
      rw [List.replicate_succ, run_cons, step_apply e ht]
      cases hc : Crawl f e.history i ⟨t.url, t.depth, e.pc⟩ with
      | none =>
          simp only [solo, hc] at hne ⊢
          simpa using ih e hne
      | some e1 =>
          simp only [solo, hc] at hne ⊢
          have he1 : e1.pc ≠ .aborted := by
            intro h1
            have h2 : (e.andThen e1).pc = .aborted := h1
            rw [solo_completed f i t.url t.depth n _ (Or.inr h2)] at hne
            exact hne h2
          simpa [he1] using ih (e.andThen e1) hne

theorem run_replicate {f : Fetcher} {s : State} {i : Nat} {t : Task}
    (ht : s.tasks[i]? = some t) (n : Nat)
    (hne : (solo f i t.url t.depth n ⟨s.history, t.pc, 0, [], []⟩).pc ≠ .aborted) :
    run f s (List.replicate n i)
      = s.apply i t (solo f i t.url t.depth n ⟨s.history, t.pc, 0, [], []⟩) := by
  have := run_replicate_apply (f := f) ht n ⟨s.history, t.pc, 0, [], []⟩ hne
  rw [apply_idle ht] at this
  exact this

theorem solo_add (f : Fetcher) (i : Nat) (url : String) (depth : Int) :
    ∀ (a b : Nat) (e : Effect),
      solo f i url depth (a + b) e = solo f i url depth b (solo f i url depth a e) := by
  intro a
  induction a with
  | zero => intro b e; simp [solo]
  | succ a ih =>
      intro b e
      rw [show a + 1 + b = (a + b) + 1 by omega]
      simp only [solo]
      cases Crawl f e.history i ⟨url, depth, e.pc⟩ <;> simp [ih]

/-! ## The depth test and the fetch error -/

/-- A step of another goroutine leaves the record of goroutine `i` as it is,
unless the step aborts the program, which stops goroutine `i`. -/
theorem step_frame {f : Fetcher} {s s1 : State} {i j : Nat} {t : Task}
    (hi : s.tasks[i]? = some t) (h : step f s j = some s1) (hne : j ≠ i) :
    s1.tasks[i]? = some t ∨ (crashed s1 ∧ s1.tasks[i]? = some t.kill) := by
  obtain ⟨tj, e, htj, hm⟩ := step_eq_some h
  have hap : (s.apply j tj e).tasks[i]? = some t := by
    rw [getElem?_apply e htj i]
    have := lt_length_of_getElem? hi
    simp [Ne.symm hne, this, hi]
  rcases hm with hm | hm
  · rw [hm.2]
    exact Or.inl hap
  · rw [hm.2]
    refine Or.inr ⟨crashed_abort htj (by rw [hm.1.aborts.1]), ?_⟩
    rw [getElem?_abort, hap]
    rfl

/-- With a seed depth `<= 0` a run is in its start state or in the state where
the seed goroutine has returned without doing anything else. -/
theorem run_of_depth_le_zero (f : Fetcher) (seed : String) (depth : Int) (hd : depth ≤ 0)
    (sched : List Nat) :
    run f (mainStart seed depth) sched = mainStart seed depth ∨
    run f (mainStart seed depth) sched
      = ⟨fetchHistory.zero, 0, [⟨seed, depth, .completed⟩], [.done 0]⟩ := by
  refine run_induction
    (fun r => r = mainStart seed depth ∨
      r = ⟨fetchHistory.zero, 0, [⟨seed, depth, .completed⟩], [.done 0]⟩)
    ?_ sched _ (Or.inl rfl)
  intro s i s1 hs h
  obtain ⟨t, e, ht, hm⟩ := step_eq_some h
  rcases hs with rfl | rfl
  · cases i with
    | zero =>
        simp [mainStart] at ht
        subst ht
        right
        simp only [mainStart, fetchHistory.zero] at hm
        rcases hm with ⟨hm, rfl⟩ | ⟨hm, _⟩
        · cases hm with
          | baseCase => rfl
          | callFetch _ _ _ hpos => omega
        · cases hm
    | succ i => simp [mainStart] at ht
  · cases i with
    | zero =>
        simp at ht
        subst ht
        rcases hm with ⟨hm, _⟩ | ⟨hm, _⟩ <;> cases hm
    | succ i => simp at ht

/-- C6. A goroutine with `depth <= 0` makes one step: it returns, running
`wg.Done()`; `Fetch` is not invoked, `Set` is not called, the history and the
other goroutines are unchanged, no goroutine is started and nothing is
printed; scheduled again it does nothing.  A run whose seed depth is `<= 0`
therefore never invokes `Fetch`: its trace holds at most the `wg.Done()` of the
seed, its history stays the zero value and the seed stays the only
goroutine. -/
theorem C6_depth_base_case (f : Fetcher) (s : State) (i : Nat) (t : Task)
    (hi : s.tasks[i]? = some t) (hpc : t.pc = .pending) (hd : t.depth ≤ 0) :
    (∀ n, run f s (List.replicate (n + 1) i)
        = { s with wg := s.wg - 1,
                   tasks := s.tasks.set i { t with pc := .completed },
                   trace := s.trace ++ [.done i] }) ∧
    (∀ seed depth sched, depth ≤ 0 →
        (∀ u, fetchCount u (run f (mainStart seed depth) sched).trace = 0) ∧
        (∀ e ∈ (run f (mainStart seed depth) sched).trace, e = .done 0) ∧
        (run f (mainStart seed depth) sched).history = fetchHistory.zero ∧
        (run f (mainStart seed depth) sched).tasks.length = 1) := by
  constructor
  · intro n
    obtain ⟨url, d, pc⟩ := t
    simp only at hpc hd
    subst hpc
    have h1 : solo f i url d 1 ⟨s.history, .pending, 0, [], []⟩
        = ⟨s.history, .completed, -1, [], [.done i]⟩ := by
      simp [solo, Crawl, hd, Effect.andThen]
    have h2 : solo f i url d (n + 1) ⟨s.history, .pending, 0, [], []⟩
        = ⟨s.history, .completed, -1, [], [.done i]⟩ := by
      rw [show n + 1 = 1 + n by omega, solo_add, h1, solo_completed _ _ _ _ _ _ (Or.inl rfl)]
    rw [run_replicate hi (n + 1) (by rw [h2]; simp), h2]
    simp [State.apply, Int.sub_eq_add_neg]
  · intro seed depth sched hdep
    rcases run_of_depth_le_zero f seed depth hdep sched with h | h <;> rw [h] <;>
      simp [mainStart, fetchCount]

set_option maxRecDepth 100000 in
/-- Witness for C6: the seed goroutine of `cycleAB` started with depth 0. -/
theorem C6_depth_base_case_witness :
    run cycleAB (mainStart "A" 0) (List.replicate (2 + 1) 0)
        = { mainStart "A" 0 with
              wg := (mainStart "A" 0).wg - 1,
              tasks := (mainStart "A" 0).tasks.set 0 { (Task.mk "A" 0 .pending) with pc := .completed },
              trace := (mainStart "A" 0).trace ++ [.done 0] } ∧
    fetchCount "A" (run cycleAB (mainStart "A" (-1)) [0, 0]).trace = 0 :=
  ⟨(C6_depth_base_case cycleAB (mainStart "A" 0) 0 ⟨"A", 0, .pending⟩ rfl rfl (by decide)).1 2,
   ((C6_depth_base_case cycleAB (mainStart "A" 0) 0 ⟨"A", 0, .pending⟩ rfl rfl (by decide)).2
      "A" (-1) [0, 0] (by decide)).1 "A"⟩

/-- A goroutine with `depth >= 1` whose `Fetch` returns an error makes three
steps: it invokes `Fetch`, prints the error, and returns running `wg.Done()`.
These steps leave the history, the other goroutines and the number of
goroutines as they are, `Set` is not called and no goroutine is started;
scheduled again the goroutine does nothing.  After each of these steps every
other goroutine has the record it had and its next step has the effect it
would have had before; a step of another goroutine leaves this goroutine as
it is unless it aborts the program. -/
theorem fetch_error_steps (f : Fetcher) (s : State) (i : Nat) (t : Task) (msg : String)
    (hi : s.tasks[i]? = some t) (hd : 1 ≤ t.depth) (hf : f t.url = .err msg) :
    (t.pc = .pending → step f s i
        = some { s with tasks := s.tasks.set i { t with pc := .fetching },
                        trace := s.trace ++ [.fetch i t.url] }) ∧
    (t.pc = .fetching → step f s i
        = some { s with tasks := s.tasks.set i { t with pc := .failed },
                        trace := s.trace ++ [.print i (.error msg)] }) ∧
    (t.pc = .failed → step f s i
        = some { s with wg := s.wg - 1,
                        tasks := s.tasks.set i { t with pc := .completed },
                        trace := s.trace ++ [.done i] }) ∧
    (t.pc = .pending → ∀ n, run f s (List.replicate (n + 3) i)
        = { s with wg := s.wg - 1,
                   tasks := s.tasks.set i { t with pc := .completed },
                   trace := s.trace ++ [.fetch i t.url, .print i (.error msg), .done i] }) ∧
    (t.pc = .pending ∨ t.pc = .fetching ∨ t.pc = .failed →
      ∀ s1 j tj, step f s i = some s1 → j ≠ i → s.tasks[j]? = some tj →
        s1.tasks[j]? = some tj ∧ Crawl f s1.history j tj = Crawl f s.history j tj) ∧
    (∀ j s1, j ≠ i → step f s j = some s1 →
      s1.tasks[i]? = some t ∨ (crashed s1 ∧ s1.tasks[i]? = some t.kill)) := by
  obtain ⟨url, d, pc⟩ := t
  simp only at hd hf
  have hd0 : ¬ d ≤ 0 := by omega
  have e1 : pc = .pending → step f s i
      = some { s with tasks := s.tasks.set i ⟨url, d, .fetching⟩,
                      trace := s.trace ++ [.fetch i url] } := by
    intro hpc
    subst hpc
    rw [step_of_Crawl hi (e := ⟨s.history, .fetching, 0, [], [.fetch i url]⟩)
      (by simp [Crawl, hd0]) (by simp)]
    simp [State.apply]
  have e2 : pc = .fetching → step f s i
      = some { s with tasks := s.tasks.set i ⟨url, d, .failed⟩,
                      trace := s.trace ++ [.print i (.error msg)] } := by
    intro hpc
    subst hpc
    rw [step_of_Crawl hi (e := ⟨s.history, .failed, 0, [], [.print i (.error msg)]⟩)
      (by simp [Crawl, hf]) (by simp)]
    simp [State.apply]
  have e3 : pc = .failed → step f s i
      = some { s with wg := s.wg - 1,
                      tasks := s.tasks.set i ⟨url, d, .completed⟩,
                      trace := s.trace ++ [.done i] } := by
    intro hpc
    subst hpc
    rw [step_of_Crawl hi (e := ⟨s.history, .completed, -1, [], [.done i]⟩) (by simp [Crawl])
      (by simp)]
    simp [State.apply, Int.sub_eq_add_neg]
  refine ⟨e1, e2, e3, ?_, ?_, fun j s1 hne h => step_frame hi h hne⟩
  · intro hpc n
    simp only at hpc
    subst hpc
    have h1 : solo f i url d 3 ⟨s.history, .pending, 0, [], []⟩
        = ⟨s.history, .completed, -1, [], [.fetch i url, .print i (.error msg), .done i]⟩ := by
      simp [solo, Crawl, hd0, hf, Effect.andThen]
    have h2 : solo f i url d (n + 3) ⟨s.history, .pending, 0, [], []⟩
        = ⟨s.history, .completed, -1, [], [.fetch i url, .print i (.error msg), .done i]⟩ := by
      rw [show n + 3 = 3 + n by omega, solo_add, h1, solo_completed _ _ _ _ _ _ (Or.inl rfl)]
    rw [run_replicate hi (n + 3) (by rw [h2]; simp), h2]
    simp [State.apply, Int.sub_eq_add_neg]
  · intro hpc s1 j tj h hne hj
    have hij : i ≠ j := fun h' => hne h'.symm
    simp only at hpc
    rcases hpc with hpc | hpc | hpc
    · rw [e1 hpc] at h
      cases h
      simp [List.getElem?_set_ne hij, hj]
    · rw [e2 hpc] at h
      cases h
      simp [List.getElem?_set_ne hij, hj]
    · rw [e3 hpc] at h
      cases h
      simp [List.getElem?_set_ne hij, hj]

set_option maxRecDepth 100000 in
/-- The fetch error on `brokenLink`: goroutine 1 is started for the unknown URL
`X`; its three steps print the error and return, and in a run without
overlapping calls of `Set` the sibling `Y` is fetched all the same and every
goroutine returns. -/
theorem fetch_error_steps_on_brokenLink :
    (run brokenLink (mainStart "S" 2) (List.replicate 10 0)).tasks[1]? = some ⟨"X", 1, .pending⟩ ∧
    run brokenLink (run brokenLink (mainStart "S" 2) (List.replicate 10 0)) (List.replicate (0 + 3) 1)
      = { run brokenLink (mainStart "S" 2) (List.replicate 10 0) with
            wg := (run brokenLink (mainStart "S" 2) (List.replicate 10 0)).wg - 1,
            tasks := (run brokenLink (mainStart "S" 2) (List.replicate 10 0)).tasks.set 1
              { (Task.mk "X" 1 .pending) with pc := .completed },
            trace := (run brokenLink (mainStart "S" 2) (List.replicate 10 0)).trace ++
              [.fetch 1 (Task.mk "X" 1 .pending).url, .print 1 (.error "not found: X"), .done 1] } ∧
    fetchCount "Y" (run brokenLink (mainStart "S" 2)
      (List.replicate 10 0 ++ List.replicate 3 1 ++ List.replicate 8 0 ++ List.replicate 3 2)).trace = 1 ∧
    allDone (run brokenLink (mainStart "S" 2)
      (List.replicate 10 0 ++ List.replicate 3 1 ++ List.replicate 8 0 ++ List.replicate 3 2)) :=
  ⟨by decide,
   (fetch_error_steps brokenLink (run brokenLink (mainStart "S" 2) (List.replicate 10 0)) 1
      ⟨"X", 1, .pending⟩ "not found: X" (by decide) (by decide) (by decide)).2.2.2.1 rfl 0,
   by decide, by decide⟩

theorem Set_nil_map (u : String) :
    Set ⟨false, none⟩ u = some (⟨false, some {u}⟩, none) := by
  simp [Set, fetchHistory.keys]

theorem Set_present {m : Finset String} {u : String} (hu : u ∈ m) :
    Set ⟨false, some m⟩ u = some (⟨false, some m⟩, some (alreadyVisited u)) := by
  simp [Set, fetchHistory.keys, hu]

theorem Set_absent {m : Finset String} {u : String} (hu : u ∉ m) :
    Set ⟨false, some m⟩ u = some (⟨false, some (insert u m)⟩, none) := by
  simp [Set, fetchHistory.keys, hu]

/-- The small steps of the loop, taken by one goroutine alone from a state with
the mutex free, add up to `loopResult`, which runs `Set` as a whole. -/
theorem solo_loop (f : Fetcher) (i : Nat) (url : String) (d : Int) :
    ∀ (rest : List String) (m : Option (Finset String)) (w : Int) (ch : List Task)
      (ev : List Event) (n : Nat), 8 * rest.length + 1 ≤ n →
      solo f i url d n ⟨⟨false, m⟩, .expanding rest, w, ch, ev⟩
        = ⟨(loopResult i d ⟨false, m⟩ rest).1, .completed,
            w + (loopResult i d ⟨false, m⟩ rest).2.1.length + -1,
            ch ++ (loopResult i d ⟨false, m⟩ rest).2.1,
            ev ++ (loopResult i d ⟨false, m⟩ rest).2.2 ++ [.done i]⟩ := by
  intro rest
  induction rest with
  | nil =>
      intro m w ch ev n hn
      obtain ⟨k, rfl⟩ : ∃ k, n = 1 + k := ⟨n - 1, by omega⟩
      rw [solo_add]
      have h1 : solo f i url d 1 ⟨⟨false, m⟩, .expanding [], w, ch, ev⟩
          = ⟨⟨false, m⟩, .completed, w + -1, ch, ev ++ [.done i]⟩ := by
        simp [solo, Crawl, Effect.andThen]
      rw [h1, solo_completed _ _ _ _ _ _ (Or.inl rfl)]
      simp [loopResult]
  | cons u rest ih =>
      intro m w ch ev n hn
      simp only [List.length_cons] at hn
      cases m with
      | none =>
          obtain ⟨k, rfl⟩ : ∃ k, n = 8 + k := ⟨n - 8, by omega⟩
          rw [solo_add]
          have h1 : solo f i url d 8 ⟨⟨false, none⟩, .expanding (u :: rest), w, ch, ev⟩
              = ⟨⟨false, some {u}⟩, .expanding rest, w + 1, ch ++ [⟨u, d - 1, .pending⟩],
                  ev ++ [.setCall i u, .setRet i u none, .spawn i u (d - 1)]⟩ := by
            simp [solo, Crawl, setStep, Effect.andThen, fetchHistory.keys]
          rw [h1, ih _ _ _ _ k (by omega)]
          simp [loopResult, Set_nil_map]
          omega
      | some m =>
          by_cases hu : u ∈ m
          · obtain ⟨k, rfl⟩ : ∃ k, n = 4 + k := ⟨n - 4, by omega⟩
            rw [solo_add]
            have h1 : solo f i url d 4 ⟨⟨false, some m⟩, .expanding (u :: rest), w, ch, ev⟩
                = ⟨⟨false, some m⟩, .expanding rest, w, ch,
                    ev ++ [.setCall i u, .setRet i u (some (alreadyVisited u))]⟩ := by
              simp [solo, Crawl, setStep, Effect.andThen, fetchHistory.keys, hu]
            rw [h1, ih _ _ _ _ k (by omega)]
            simp [loopResult, Set_present hu]
          · obtain ⟨k, rfl⟩ : ∃ k, n = 7 + k := ⟨n - 7, by omega⟩
            rw [solo_add]
            have h1 : solo f i url d 7 ⟨⟨false, some m⟩, .expanding (u :: rest), w, ch, ev⟩
                = ⟨⟨false, some (insert u m)⟩, .expanding rest, w + 1,
                    ch ++ [⟨u, d - 1, .pending⟩],
                    ev ++ [.setCall i u, .setRet i u none, .spawn i u (d - 1)]⟩ := by
              simp [solo, Crawl, setStep, Effect.andThen, fetchHistory.keys, hu]
            rw [h1, ih _ _ _ _ k (by omega)]
            simp [loopResult, Set_absent hu]
            omega

theorem firstOccs_filter (p : String → Bool) :
    ∀ l : List String, firstOccs (l.filter p) = (firstOccs l).filter p := by
  intro l
  induction l with
  | nil => rfl
  | cons x l ih =>
      by_cases hp : p x = true
      · simp only [List.filter_cons, hp, if_true, firstOccs, ih, List.filter_filter]
        congr 1
        apply List.filter_congr
        intro a _
        exact Bool.and_comm _ _
      · have hp1 : p x = false := by simpa using hp
        rw [List.filter_cons_of_neg (by simp [hp1]), ih]
        simp only [firstOccs, List.filter_cons, hp1, Bool.false_eq_true, if_false,
          List.filter_filter]
        apply List.filter_congr
        intro a _
        by_cases hax : a = x
        · subst hax
          simp [hp]
        · simp [hax]

theorem filter_not_mem_insert (u : String) (K : Finset String) (l : List String) :
    l.filter (fun v => v ∉ insert u K)
      = (l.filter (fun v => v ∉ K)).filter (fun v => v ≠ u) := by
  rw [List.filter_filter]
  apply List.filter_congr
  intro a _
  simp [Finset.mem_insert, not_or]

theorem loopResult_nil_map (i : Nat) (d : Int) (u : String) (rest : List String) :
    loopResult i d ⟨false, none⟩ (u :: rest) = loopResult i d ⟨false, some ∅⟩ (u :: rest) := by
  simp [loopResult, Set_nil_map, Set_absent]

/-- What the loop does when `Set` is run as a whole: it leaves the old URLs plus
all links; it starts a goroutine, one level down, for the first occurrence of
every link that was absent, in order; it calls `Set` once per link, in order;
it does not invoke `Fetch`. -/
theorem loopResult_some (i : Nat) (d : Int) :
    ∀ (L : List String) (m : Finset String),
      (loopResult i d ⟨false, some m⟩ L).1.locked = false ∧
      (loopResult i d ⟨false, some m⟩ L).1.history_map ≠ none ∧
      (loopResult i d ⟨false, some m⟩ L).1.keys = m ∪ L.toFinset ∧
      (loopResult i d ⟨false, some m⟩ L).2.1
        = (firstOccs (L.filter (fun u => u ∉ m))).map (fun u => ⟨u, d - 1, .pending⟩) ∧
      (∀ u, fetchCount u (loopResult i d ⟨false, some m⟩ L).2.2 = 0) ∧
      spawnsOf (loopResult i d ⟨false, some m⟩ L).2.2
        = (firstOccs (L.filter (fun u => u ∉ m))).map (fun u => (u, d - 1)) ∧
      setCallsOf (loopResult i d ⟨false, some m⟩ L).2.2 = L := by
  intro L
  induction L with
  | nil =>
      intro m
      simp [loopResult, fetchHistory.keys, firstOccs, fetchCount, spawnsOf, setCallsOf]
  | cons u rest ih =>
      intro m
      by_cases hu : u ∈ m
      · obtain ⟨h1, h2, h3, h4, h5, h6, h7⟩ := ih m
        simp only [loopResult, Set_present hu]
        refine ⟨h1, h2, ?_, ?_, ?_, ?_, ?_⟩
        · rw [h3]
          ext v
          simp only [Finset.mem_union, List.mem_toFinset, List.mem_cons]
          constructor
          · rintro (h | h)
            · exact Or.inl h
            · exact Or.inr (Or.inr h)
          · rintro (h | h | h)
            · exact Or.inl h
            · exact Or.inl (h ▸ hu)
            · exact Or.inr h
        · rw [h4]
          simp [List.filter_cons, hu]
        · intro v
          have := h5 v
          simp only [fetchCount] at this ⊢
          simp [List.countP_cons, this]
        · simp only [spawnsOf] at h6 ⊢
          simp [List.filterMap_cons, h6, List.filter_cons, hu]
        · simp only [setCallsOf] at h7 ⊢
          simp [List.filterMap_cons, h7]
      · obtain ⟨h1, h2, h3, h4, h5, h6, h7⟩ := ih (insert u m)
        simp only [loopResult, Set_absent hu]
        have hfo : firstOccs (List.filter (fun v => decide (v ∉ m)) (u :: rest))
            = u :: firstOccs (List.filter (fun v => decide (v ∉ insert u m)) rest) := by
          rw [List.filter_cons_of_pos (by simpa using hu), filter_not_mem_insert u m rest,
            firstOccs_filter]
          rfl
        refine ⟨h1, h2, ?_, ?_, ?_, ?_, ?_⟩
        · rw [h3]
          ext v
          simp only [Finset.mem_union, List.mem_toFinset, List.mem_cons, Finset.mem_insert]
          tauto
        · rw [h4, hfo]
          simp
        · intro v
          have := h5 v
          simp only [fetchCount] at this ⊢
          simp [List.countP_cons, this]
        · simp only [spawnsOf] at h6 ⊢
          rw [hfo]
          simp [List.filterMap_cons, h6]
        · simp only [setCallsOf] at h7 ⊢
          simp [List.filterMap_cons, h7]

theorem loopResult_spec (i : Nat) (d : Int) (L : List String) (m : Option (Finset String)) :
    (loopResult i d ⟨false, m⟩ L).1.locked = false ∧
    (loopResult i d ⟨false, m⟩ L).1.keys = (fetchHistory.mk false m).keys ∪ L.toFinset ∧
    (loopResult i d ⟨false, m⟩ L).2.1
      = (firstOccs (L.filter (fun u => u ∉ (fetchHistory.mk false m).keys))).map
          (fun u => ⟨u, d - 1, .pending⟩) ∧
    (∀ u, fetchCount u (loopResult i d ⟨false, m⟩ L).2.2 = 0) ∧
    spawnsOf (loopResult i d ⟨false, m⟩ L).2.2
      = (firstOccs (L.filter (fun u => u ∉ (fetchHistory.mk false m).keys))).map
          (fun u => (u, d - 1)) ∧
    setCallsOf (loopResult i d ⟨false, m⟩ L).2.2 = L := by
  cases m with
  | some m =>
      obtain ⟨h1, _, h3, h4, h5, h6, h7⟩ := loopResult_some i d L m
      exact ⟨h1, h3, h4, h5, h6, h7⟩
  | none =>
      cases L with
      | nil => simp [loopResult, fetchHistory.keys, firstOccs, fetchCount, spawnsOf, setCallsOf]
      | cons u rest =>
          rw [loopResult_nil_map]
          obtain ⟨h1, _, h3, h4, h5, h6, h7⟩ := loopResult_some i d (u :: rest) ∅
          exact ⟨h1, h3, h4, h5, h6, h7⟩

/-- C7. A goroutine with depth `d >= 1` whose `Fetch` succeeds with the links
`L`, run alone from a state with the mutex free until it has returned: the
goroutines it starts are, in the order of `L`, the first occurrences in `L` of
the URLs that were absent from the history, each pending with depth `d - 1`,
which is not negative; afterwards the history holds the old URLs and all URLs
of `L`; the counter has grown by the number of goroutines started minus one;
`Fetch` was invoked once, `Set` was called once per link in order, and the
spawns are those of the goroutines started. -/
theorem C7_expansion_step (f : Fetcher) (s : State) (i : Nat) (t : Task) (body : String)
    (L : List String) (hi : s.tasks[i]? = some t) (hpc : t.pc = .pending) (hd : 1 ≤ t.depth)
    (hf : f t.url = .ok body L) (hfree : s.history.locked = false)
    (n : Nat) (hn : 8 * L.length + 3 ≤ n) :
    (run f s (List.replicate n i)).tasks
      = s.tasks.set i { t with pc := .completed } ++
          (firstOccs (L.filter (fun u => u ∉ s.history.keys))).map
            (fun u => ⟨u, t.depth - 1, .pending⟩) ∧
    0 ≤ t.depth - 1 ∧
    (run f s (List.replicate n i)).history.keys = s.history.keys ∪ L.toFinset ∧
    (run f s (List.replicate n i)).history.locked = false ∧
    (run f s (List.replicate n i)).wg
      = s.wg + (firstOccs (L.filter (fun u => u ∉ s.history.keys))).length - 1 ∧
    ∃ evs, (run f s (List.replicate n i)).trace
        = s.trace ++ [.fetch i t.url, .print i (.found t.url body)] ++ evs ++ [.done i] ∧
      (∀ u, fetchCount u evs = 0) ∧ setCallsOf evs = L ∧
      spawnsOf evs = (firstOccs (L.filter (fun u => u ∉ s.history.keys))).map
        (fun u => (u, t.depth - 1)) := by
  obtain ⟨url, d, pc⟩ := t
  obtain ⟨⟨b, m⟩, wg, tasks, tr⟩ := s
  simp only at hpc hd hf hfree hi
  subst hpc hfree
  have hd0 : ¬ d ≤ 0 := by omega
  obtain ⟨k, rfl⟩ : ∃ k, n = 2 + k := ⟨n - 2, by omega⟩
  obtain ⟨h1, h2, h3, h4, h5, h6⟩ := loopResult_spec i d L m
  have hs2 : solo f i url d 2 ⟨⟨false, m⟩, .pending, 0, [], []⟩
      = ⟨⟨false, m⟩, .expanding L, 0, [], [.fetch i url, .print i (.found url body)]⟩ := by
    simp [solo, Crawl, hd0, hf, Effect.andThen]
  have hs : solo f i url d (2 + k) ⟨⟨false, m⟩, .pending, 0, [], []⟩
      = ⟨(loopResult i d ⟨false, m⟩ L).1, .completed,
          0 + (loopResult i d ⟨false, m⟩ L).2.1.length + -1,
          [] ++ (loopResult i d ⟨false, m⟩ L).2.1,
          [.fetch i url, .print i (.found url body)] ++ (loopResult i d ⟨false, m⟩ L).2.2
            ++ [.done i]⟩ := by
    rw [solo_add, hs2, solo_loop f i url d L m 0 [] _ k (by omega)]
  rw [run_replicate hi (2 + k) (by rw [hs]; simp), hs]
  refine ⟨?_, by show 0 ≤ d - 1; omega, ?_, ?_, ?_, ?_⟩
  · simp [State.apply, h3]
  · simpa [State.apply] using h2
  · simpa [State.apply] using h1
  · simp [State.apply, h3]
    omega
  · exact ⟨_, by simp [State.apply], h4, h6, h5⟩

set_option maxRecDepth 100000 in
/-- Witness for C7: the seed goroutine of `main` run alone on `fetcher`. -/
theorem C7_expansion_step_witness :
    fetcher.Fetch "http://golang.org/"
      = .ok "The Go Programming Language" ["http://golang.org/pkg/", "http://golang.org/cmd/"] ∧
    (run fetcher.Fetch main (List.replicate 19 0)).tasks
      = [⟨"http://golang.org/", 4, .completed⟩, ⟨"http://golang.org/pkg/", 3, .pending⟩,
         ⟨"http://golang.org/cmd/", 3, .pending⟩] :=
  ⟨by decide,
   (C7_expansion_step fetcher.Fetch main 0 ⟨"http://golang.org/", 4, .pending⟩
      "The Go Programming Language" ["http://golang.org/pkg/", "http://golang.org/cmd/"]
      (by decide) rfl (by decide) (by decide) (by decide) 19 (by decide)).1.trans (by decide)⟩

/-! ## The seed URL is not marked -/

set_option maxRecDepth 100000 in
/-- C1, evaluated on the code.  `main` does not record the seed URL in the
history, so the first page that links back to the seed marks it and a second
goroutine fetches it again.  (1) The program itself (`fetcher`, seed
`http://golang.org/`, depth 4), with non-overlapping calls of `Set`, invokes
`Fetch` twice for the seed.  (2) So does the site `A -> B -> A` with seed `A`
and depth 5: `A` is fetched twice and `B` once. -/
theorem C1_seed_is_fetched_twice :
    (fetchCount "http://golang.org/"
        (runAtomic fetcher.Fetch main
          (List.replicate 7 0 ++ List.replicate 11 1 ++ List.replicate 3 2 ++ List.replicate 7 3
            ++ List.replicate 7 4 ++ List.replicate 7 5)).trace = 2 ∧
      allDone (runAtomic fetcher.Fetch main
          (List.replicate 7 0 ++ List.replicate 11 1 ++ List.replicate 3 2 ++ List.replicate 7 3
            ++ List.replicate 7 4 ++ List.replicate 7 5))) ∧
    (fetchCount "A" (runAtomic cycleAB (mainStart "A" 5)
        (List.replicate 5 0 ++ List.replicate 5 1 ++ List.replicate 5 2)).trace = 2 ∧
      fetchCount "B" (runAtomic cycleAB (mainStart "A" 5)
        (List.replicate 5 0 ++ List.replicate 5 1 ++ List.replicate 5 2)).trace = 1 ∧
      allDone (runAtomic cycleAB (mainStart "A" 5)
        (List.replicate 5 0 ++ List.replicate 5 1 ++ List.replicate 5 2))) := by
  decide

/-! ## The fetched set depends on the schedule -/

set_option maxRecDepth 100000 in
/-- C9 as stated fails.  On the site `diamond` with seed `S` and depth 3 the
page `X` is linked from `S` and from `A`.  If `S` marks `X` first, `X` runs with
depth 2 and `Y` is fetched; if `A` marks `X` first, `X` runs with depth 1, `Y`
gets depth 0 and is not fetched.  Both runs start from a fresh history and end
with every goroutine returned. -/
theorem C9_fetched_set_depends_on_schedule :
    fetchedSet (run diamond (mainStart "S" 3)
        (List.replicate 18 0 ++ List.replicate 7 1 ++ List.replicate 10 2 ++ List.replicate 10 3
          ++ List.replicate 1 4)).trace = {"S", "A", "X", "Y"} ∧
    allDone (run diamond (mainStart "S" 3)
        (List.replicate 18 0 ++ List.replicate 7 1 ++ List.replicate 10 2 ++ List.replicate 10 3
          ++ List.replicate 1 4)) ∧
    fetchedSet (run diamond (mainStart "S" 3)
        (List.replicate 10 0 ++ List.replicate 10 1 ++ List.replicate 5 0 ++ List.replicate 10 2
          ++ List.replicate 1 3)).trace = {"S", "A", "X"} ∧
    allDone (run diamond (mainStart "S" 3)
        (List.replicate 10 0 ++ List.replicate 10 1 ++ List.replicate 5 0 ++ List.replicate 10 2
          ++ List.replicate 1 3)) ∧
    ¬ (∀ sched1 sched2 : List Nat,
        allDone (run diamond (mainStart "S" 3) sched1) →
        allDone (run diamond (mainStart "S" 3) sched2) →
        fetchedSet (run diamond (mainStart "S" 3) sched1).trace
          = fetchedSet (run diamond (mainStart "S" 3) sched2).trace) := by
  have h1 : fetchedSet (run diamond (mainStart "S" 3)
        (List.replicate 18 0 ++ List.replicate 7 1 ++ List.replicate 10 2 ++ List.replicate 10 3
          ++ List.replicate 1 4)).trace = {"S", "A", "X", "Y"} := by decide
  have h2 : allDone (run diamond (mainStart "S" 3)
        (List.replicate 18 0 ++ List.replicate 7 1 ++ List.replicate 10 2 ++ List.replicate 10 3
          ++ List.replicate 1 4)) := by decide
  have h3 : fetchedSet (run diamond (mainStart "S" 3)
        (List.replicate 10 0 ++ List.replicate 10 1 ++ List.replicate 5 0 ++ List.replicate 10 2
          ++ List.replicate 1 3)).trace = {"S", "A", "X"} := by decide
  have h4 : allDone (run diamond (mainStart "S" 3)
        (List.replicate 10 0 ++ List.replicate 10 1 ++ List.replicate 5 0 ++ List.replicate 10 2
          ++ List.replicate 1 3)) := by decide
  refine ⟨h1, h2, h3, h4, ?_⟩
  intro hall
  have := hall _ _ h2 h4
  rw [h1, h3] at this
  revert this
  decide

/-! ## A run of `main` that is aborted -/

set_option maxRecDepth 100000 in
/-- C5, on the program of `main.go` itself.  After fourteen steps of the seed
goroutine and four of goroutine 1 (`/pkg/`), the seed goroutine holds the
mutex and is about to store `http://golang.org/cmd/`, and goroutine 1 is at
the map read of line 68 in `Set("http://golang.org/")`, which is outside the
mutex.  The next step of goroutine 1 is that read: it is concurrent with the
map write and fatal.  The program is aborted with both goroutines unreturned
and the counter at 2; whatever is scheduled afterwards the state stays as it
is, so not every goroutine completes, the counter never reaches zero and
`wg.Wait()` never returns. -/
theorem C5_run_aborted_by_unlocked_map_read :
    (run fetcher.Fetch main (List.replicate 14 0 ++ List.replicate 4 1)).tasks
      = [⟨"http://golang.org/", 4, .inSet .store "http://golang.org/cmd/" []⟩,
         ⟨"http://golang.org/pkg/", 3, .inSet .lookup "http://golang.org/"
            ["http://golang.org/cmd/", "http://golang.org/pkg/fmt/",
             "http://golang.org/pkg/os/"]⟩] ∧
    (run fetcher.Fetch main (List.replicate 14 0 ++ List.replicate 4 1)).history.locked = true ∧
    (run fetcher.Fetch main (List.replicate 14 0 ++ List.replicate 5 1)).tasks.map Task.pc
      = [.aborted, .aborted] ∧
    (run fetcher.Fetch main (List.replicate 14 0 ++ List.replicate 5 1)).trace.getLast?
      = some (.fatal 1) ∧
    (run fetcher.Fetch main (List.replicate 14 0 ++ List.replicate 5 1)).wg = 2 ∧
    ∀ more,
      run fetcher.Fetch main (List.replicate 14 0 ++ List.replicate 5 1 ++ more)
        = run fetcher.Fetch main (List.replicate 14 0 ++ List.replicate 5 1) ∧
      ¬ allDone (run fetcher.Fetch main (List.replicate 14 0 ++ List.replicate 5 1 ++ more)) ∧
      ¬ waitReturns (run fetcher.Fetch main (List.replicate 14 0 ++ List.replicate 5 1 ++ more)) := by
  refine ⟨by decide, by decide, by decide, by decide, by decide, ?_⟩
  intro more
  have hs : run fetcher.Fetch main (List.replicate 14 0 ++ List.replicate 5 1 ++ more)
      = run fetcher.Fetch main (List.replicate 14 0 ++ List.replicate 5 1) := by
    rw [run_append]
    exact run_stuck (by decide) more
  rw [hs]
  exact ⟨rfl, by decide, by decide⟩

/-! ## Steps with atomic `Set`: lemmas -/

theorem runAtomic_cons (f : Fetcher) (s : State) (i : Nat) (l : List Nat) :
    runAtomic f s (i :: l) = runAtomic f ((stepAtomic f s i).getD s) l := rfl

theorem runAtomic_induction {f : Fetcher} (P : State → Prop)
    (hstep : ∀ s i s1, P s → stepAtomic f s i = some s1 → P s1) :
    ∀ (l : List Nat) (s : State), P s → P (runAtomic f s l) := by
  intro l
  induction l with
  | nil => intro s hs; exact hs
  | cons i l ih =>
      intro s hs
      rw [runAtomic_cons]
      apply ih
      cases h : stepAtomic f s i with
      | none => exact hs
      | some s1 => exact hstep s i s1 hs h

theorem midSet_apply {s : State} {i : Nat} {t : Task} (e : Effect) (ht : s.tasks[i]? = some t) :
    midSet (s.apply i t e) i = midSetPC e.pc := by
  unfold midSet
  rw [getElem?_apply e ht i]
  simp

theorem finishEff_outside (f : Fetcher) (i : Nat) (url : String) (d : Int) (n : Nat)
    (e : Effect) (h : midSetPC e.pc = false) : finishEff f i url d n e = e := by
  cases n with
  | zero => rfl
  | succ n => simp [finishEff, h]

theorem finishSet_apply {f : Fetcher} {s : State} {i : Nat} {t : Task}
    (ht : s.tasks[i]? = some t) :
    ∀ (n : Nat) (e : Effect), (finishEff f i t.url t.depth n e).pc ≠ .aborted →
      finishSet f i n (s.apply i t e) = s.apply i t (finishEff f i t.url t.depth n e) := by
  intro n
  induction n with
  | zero => intro e _; rfl
  | succ n ih =>
      intro e hne
      simp only [finishSet, finishEff, midSet_apply e ht, step_apply e ht] at hne ⊢
      cases hmid : midSetPC e.pc with
      | false => simp
      | true =>
          cases hc : Crawl f e.history i ⟨t.url, t.depth, e.pc⟩ with
          | none => simp
          | some e1 =>
              simp only [hmid, hc, if_true] at hne
              have he1 : e1.pc ≠ .aborted := by
                intro h1
                have h2 : (e.andThen e1).pc = .aborted := h1
                rw [finishEff_outside f i t.url t.depth n _ (by rw [h2]; rfl)] at hne
                exact hne h2
              simp [he1, ih (e.andThen e1) hne]

theorem stepAtomic_of_Crawl {f : Fetcher} {s : State} {i : Nat} {t : Task} {e : Effect}
    (ht : s.tasks[i]? = some t) (he : Crawl f s.history i t = some e)
    (hne : (finishEff f i t.url t.depth 6 e).pc ≠ .aborted) :
    stepAtomic f s i = some (s.apply i t (finishEff f i t.url t.depth 6 e)) := by
  have he1 : e.pc ≠ .aborted := by
    intro h1
    rw [finishEff_outside f i t.url t.depth 6 e (by rw [h1]; rfl)] at hne
    exact hne h1
  unfold stepAtomic
  rw [step_of_Crawl ht he he1]
  simp [finishSet_apply ht 6 e hne]

/-- An atomic step is a sequence of small steps of the same goroutine. -/
theorem finishSet_eq_run (f : Fetcher) (i : Nat) :
    ∀ (n : Nat) (s : State), ∃ k, finishSet f i n s = run f s (List.replicate k i) := by
  intro n
  induction n with
  | zero => intro s; exact ⟨0, rfl⟩
  | succ n ih =>
      intro s
      simp only [finishSet]
      cases midSet s i with
      | false => exact ⟨0, rfl⟩
      | true =>
          cases h : step f s i with
          | none => exact ⟨0, rfl⟩
          | some s1 =>
              obtain ⟨k, hk⟩ := ih s1
              refine ⟨k + 1, ?_⟩
              simp only [if_true, hk, List.replicate_succ, run_cons, h, Option.getD_some]

theorem runAtomic_eq_run (f : Fetcher) :
    ∀ (l : List Nat) (s : State), ∃ l1, runAtomic f s l = run f s l1 := by
  intro l
  induction l with
  | nil => intro s; exact ⟨[], rfl⟩
  | cons i l ih =>
      intro s
      rw [runAtomic_cons]
      cases h : stepAtomic f s i with
      | none => exact ih s
      | some s1 =>
          unfold stepAtomic at h
          cases hs : step f s i with
          | none => simp [hs] at h
          | some s2 =>
              simp only [hs, Option.map_some', Option.some.injEq] at h
              obtain ⟨k, hk⟩ := finishSet_eq_run f i 6 s2
              obtain ⟨l1, hl1⟩ := ih s1
              refine ⟨i :: (List.replicate k i ++ l1), ?_⟩
              simp only [Option.getD_some]
              rw [hl1, run_cons, hs, run_append, Option.getD_some, ← hk, h]

/-- A whole call of `Set` from a state with the mutex free, in small steps. -/
theorem finishEff_callSet (f : Fetcher) (i : Nat) (url : String) (d : Int) (m : Option (Finset String))
    (u : String) (rest : List String) :
    ∃ h1 r, Set ⟨false, m⟩ u = some (h1, r) ∧
      finishEff f i url d 6 ⟨⟨false, m⟩, .inSet .entry u rest, 0, [], [.setCall i u]⟩
        = ⟨h1, .inSet (.ret r) u rest, 0, [], [.setCall i u, .setRet i u r]⟩ := by
  cases m with
  | none =>
      refine ⟨_, _, Set_nil_map u, ?_⟩
      simp [finishEff, midSetPC, Crawl, setStep, Effect.andThen, fetchHistory.keys]
  | some m =>
      by_cases hu : u ∈ m
      · refine ⟨_, _, Set_present hu, ?_⟩
        simp [finishEff, midSetPC, Crawl, setStep, Effect.andThen, fetchHistory.keys, hu]
      · refine ⟨_, _, Set_absent hu, ?_⟩
        simp [finishEff, midSetPC, Crawl, setStep, Effect.andThen, fetchHistory.keys, hu]

/-- Between atomic steps, an atomic step is one of the steps listed by
`AMove`; no atomic step is fatal. -/
theorem stepAtomic_eq_some {f : Fetcher} {s s1 : State} {i : Nat} (hinv : AtomInv s)
    (h : stepAtomic f s i = some s1) :
    ∃ t e, s.tasks[i]? = some t ∧ AMove f i s.history t e ∧ s1 = s.apply i t e := by
  cases ht : s.tasks[i]? with
  | none => simp [stepAtomic, step, ht] at h
  | some t =>
      cases he : Crawl f s.history i t with
      | none => simp [stepAtomic, step, ht, he] at h
      | some e =>
          have hout := hinv.outside i t ht
          have hfree := hinv.free
          have key : (finishEff f i t.url t.depth 6 e).pc ≠ .aborted ∧
              AMove f i s.history t (finishEff f i t.url t.depth 6 e) := by
            have hm := Move.of_Crawl he
            generalize hh : s.history = h0 at hm hfree
            rcases hm with hm | hm
            · cases hm with
              | baseCase h url d hd =>
                  simp only [finishEff, midSetPC, Bool.false_eq_true, if_false]
                  exact ⟨by simp, .baseCase _ _ _ hd⟩
              | callFetch h url d hd =>
                  simp only [finishEff, midSetPC, Bool.false_eq_true, if_false]
                  exact ⟨by simp, .callFetch _ _ _ hd⟩
              | fetchErr h url d msg hf =>
                  simp only [finishEff, midSetPC, Bool.false_eq_true, if_false]
                  exact ⟨by simp, .fetchErr _ _ _ _ hf⟩
              | fetchOk h url d body urls hf =>
                  simp only [finishEff, midSetPC, Bool.false_eq_true, if_false]
                  exact ⟨by simp, .fetchOk _ _ _ _ _ hf⟩
              | errReturn h url d =>
                  simp only [finishEff, midSetPC, Bool.false_eq_true, if_false]
                  exact ⟨by simp, .errReturn _ _ _⟩
              | loopEnd h url d =>
                  simp only [finishEff, midSetPC, Bool.false_eq_true, if_false]
                  exact ⟨by simp, .loopEnd _ _ _⟩
              | callSet h url d u rest =>
                  obtain ⟨b, m⟩ := h0
                  simp only at hfree
                  subst hfree
                  obtain ⟨h1, r, hs, hfin⟩ := finishEff_callSet f i url d m u rest
                  rw [hfin]
                  exact ⟨by simp, .wholeSet _ _ _ _ _ _ _ hs⟩
              | skip h url d msg u rest =>
                  simp only [finishEff, midSetPC, Bool.false_eq_true, if_false]
                  exact ⟨by simp, .skip _ _ _ _ _ _⟩
              | spawn h url d u rest =>
                  simp only [finishEff, midSetPC, Bool.false_eq_true, if_false]
                  exact ⟨by simp, .spawn _ _ _ _ _⟩
              | _ => simp [midSetPC] at hout
            · cases hm <;> simp [midSetPC] at hout
          rw [stepAtomic_of_Crawl ht he key.1] at h
          cases h
          exact ⟨t, _, rfl, key.2, rfl⟩

/-! ## Runs with atomic `Set` -/

theorem Set_facts {h h1 : fetchHistory} {u : String} {r : Option String}
    (hfree : h.locked = false) (hs : Set h u = some (h1, r)) :
    h1.locked = false ∧
    (u ∈ h.keys → r = some (alreadyVisited u) ∧ h1.keys = h.keys) ∧
    (u ∉ h.keys → r = none ∧ h1.keys = insert u h.keys) := by
  obtain ⟨b, m⟩ := h
  simp only at hfree
  subst hfree
  cases m with
  | none =>
      rw [Set_nil_map] at hs
      cases hs
      simp [fetchHistory.keys]
  | some m =>
      by_cases hu : u ∈ m
      · rw [Set_present hu] at hs
        cases hs
        simp [fetchHistory.keys, hu]
      · rw [Set_absent hu] at hs
        cases hs
        simp [fetchHistory.keys, hu]

theorem AtomInv_start (seed : String) (depth : Int) : AtomInv (mainStart seed depth) := by
  refine ⟨rfl, ?_⟩
  intro j t hj
  cases j with
  | zero => simp [mainStart] at hj; subst hj; rfl
  | succ j => simp [mainStart] at hj

theorem AtomInv_step {f : Fetcher} {s s1 : State} {i : Nat} (hinv : AtomInv s)
    (h : stepAtomic f s i = some s1) : AtomInv s1 := by
  obtain ⟨t, e, ht, hm, rfl⟩ := stepAtomic_eq_some hinv h
  obtain ⟨hfree, hout⟩ := hinv
  have hhist : (s.apply i t e).history = e.history := rfl
  generalize hh : s.history = h0 at hm hfree
  constructor
  · rw [hhist]
    cases hm with
    | wholeSet url d u rest h1 r hs => exact (Set_facts hfree hs).1
    | _ => exact hfree
  · intro j x hj
    rw [getElem?_apply e ht j] at hj
    by_cases hji : j = i
    · simp only [hji, if_true, Option.some.injEq] at hj
      subst hj
      cases hm <;> rfl
    · by_cases hjl : j < s.tasks.length
      · simp only [hji, hjl, if_true, if_false] at hj
        exact hout j x hj
      · simp only [hji, hjl, if_false] at hj
        have hx := List.mem_iff_getElem?.mpr ⟨_, hj⟩
        cases hm <;> simp at hx
        subst hx
        rfl


theorem fetchCount_append (u : String) (l1 l2 : List Event) :
    fetchCount u (l1 ++ l2) = fetchCount u l1 + fetchCount u l2 := by
  simp [fetchCount]

theorem setOkCount_append (u : String) (l1 l2 : List Event) :
    setOkCount u (l1 ++ l2) = setOkCount u l1 + setOkCount u l2 := by
  simp [setOkCount]

theorem spawnCount_append (u : String) (l1 l2 : List Event) :
    spawnCount u (l1 ++ l2) = spawnCount u l1 + spawnCount u l2 := by
  simp [spawnCount]

@[simp] theorem fetchCount_nil (u : String) : fetchCount u [] = 0 := rfl

theorem fetchCount_cons (u : String) (e : Event) (l : List Event) :
    fetchCount u (e :: l)
      = (match e with | .fetch _ v => if v = u then 1 else 0 | _ => 0) + fetchCount u l := by
  cases e <;> simp [fetchCount, List.countP_cons]
  omega

@[simp] theorem setOkCount_nil (u : String) : setOkCount u [] = 0 := rfl

theorem setOkCount_cons (u : String) (e : Event) (l : List Event) :
    setOkCount u (e :: l)
      = (match e with | .setRet _ v none => if v = u then 1 else 0 | _ => 0) + setOkCount u l := by
  cases e with
  | setRet t v r =>
      cases r <;> simp [setOkCount, List.countP_cons]
      omega
  | _ => simp [setOkCount, List.countP_cons]

@[simp] theorem spawnCount_nil (u : String) : spawnCount u [] = 0 := rfl

theorem spawnCount_cons (u : String) (e : Event) (l : List Event) :
    spawnCount u (e :: l)
      = (match e with | .spawn _ v _ => if v = u then 1 else 0 | _ => 0) + spawnCount u l := by
  cases e <;> simp [spawnCount, List.countP_cons]
  omega

theorem AtomCount_start (seed : String) (depth : Int) : AtomCount seed (mainStart seed depth) := by
  refine ⟨?_, ?_, ?_, ?_, ?_⟩
  · intro u
    by_cases hu : seed = u
    · simp [mainStart, urlIs, retNoneFor, fetchHistory.zero, fetchHistory.keys, hu]
    · have hu1 : ¬ u = seed := fun h => hu h.symm
      simp [mainStart, urlIs, retNoneFor, fetchHistory.zero, fetchHistory.keys, hu, hu1]
  · intro u
    simp [mainStart, fetchCount]
  · simp [mainStart, retNoneAny, fetchHistory.zero, fetchHistory.keys]
  · intro u
    simp [mainStart, setOkCount, fetchHistory.zero, fetchHistory.keys]
  · intro u
    by_cases hu : seed = u
    · simp [mainStart, spawnCount, urlIs, hu]
    · have hu1 : ¬ u = seed := fun h => hu h.symm
      simp [mainStart, spawnCount, urlIs, hu, hu1]

theorem AtomCount_step {f : Fetcher} {seed : String} {s s1 : State} {i : Nat}
    (hinv : AtomInv s) (hc : AtomCount seed s) (h : stepAtomic f s i = some s1) :
    AtomCount seed s1 := by
  obtain ⟨t, e, ht, hm, rfl⟩ := stepAtomic_eq_some hinv h
  obtain ⟨hper, hfe, hsz, hok, hsp⟩ := hc
  have hfree := hinv.free
  have hhist : (s.apply i t e).history = e.history := rfl
  have htr : (s.apply i t e).trace = s.trace ++ e.events := rfl
  have hlen := length_apply s i t e
  generalize hh : s.history = h0 at hm hfree hper hsz hok
  refine ⟨?_, ?_, ?_, ?_, ?_⟩
  · intro u0
    have h1 := tally_apply (urlIs u0) e ht
    have h2 := tally_apply (retNoneFor u0) e ht
    have h3 := hper u0
    rw [hhist]
    cases hm with
    | wholeSet url d u rest h1 r hs =>
        obtain ⟨_, hp, ha⟩ := Set_facts hfree hs
        by_cases hu : u ∈ h0.keys
        · obtain ⟨rfl, hk⟩ := hp hu
          simp only [hk]
          simp [urlIs, retNoneFor] at h1 h2
          omega
        · obtain ⟨rfl, hk⟩ := ha hu
          simp only [hk, Finset.mem_insert]
          by_cases huu : u = u0
          · subst huu
            simp [urlIs, retNoneFor, hu] at h1 h2 h3 ⊢
            omega
          · have huu2 : ¬ u0 = u := fun h => huu h.symm
            simp [urlIs, retNoneFor, huu, huu2] at h1 h2 h3 ⊢
            omega
    | spawn url d u rest =>
        by_cases huu : u = u0 <;> simp [urlIs, retNoneFor, huu] at h1 h2 ⊢ <;> omega
    | _ =>
        simp [urlIs, retNoneFor] at h1 h2 ⊢
        omega
  · intro u0
    have h1 := tally_apply (startedIs u0) e ht
    have h3 := hfe u0
    rw [htr, fetchCount_append]
    cases hm with
    | callFetch url d hd =>
        by_cases huu : url = u0 <;> simp [startedIs, fetchCount_cons, huu] at h1 ⊢ <;> omega
    | baseCase url d hd =>
        by_cases huu : url = u0 <;> simp [startedIs, fetchCount_cons, huu] at h1 ⊢ <;> omega
    | _ =>
        simp [startedIs, fetchCount_cons] at h1 ⊢
        omega
  · have h1 := tally_apply retNoneAny e ht
    rw [hhist, hlen]
    cases hm with
    | wholeSet url d u rest h1 r hs =>
        obtain ⟨_, hp, ha⟩ := Set_facts hfree hs
        by_cases hu : u ∈ h0.keys
        · obtain ⟨rfl, hk⟩ := hp hu
          simp [retNoneAny, hk] at h1 ⊢
          omega
        · obtain ⟨rfl, hk⟩ := ha hu
          rw [hk, Finset.card_insert_of_not_mem hu]
          simp [retNoneAny] at h1 ⊢
          omega
    | _ =>
        simp [retNoneAny] at h1 ⊢
        omega
  · intro u0
    have h3 := hok u0
    rw [htr, setOkCount_append, hhist]
    cases hm with
    | wholeSet url d u rest h1 r hs =>
        obtain ⟨_, hp, ha⟩ := Set_facts hfree hs
        by_cases hu : u ∈ h0.keys
        · obtain ⟨rfl, hk⟩ := hp hu
          simp [setOkCount_cons, hk, h3]
        · obtain ⟨rfl, hk⟩ := ha hu
          by_cases huu : u = u0
          · subst huu
            simp [setOkCount_cons, hk, hu] at h3 ⊢
            omega
          · have huu2 : ¬ u0 = u := fun h => huu h.symm
            simp [setOkCount_cons, hk, huu, huu2, h3]
    | _ => simp [setOkCount_cons, h3]
  · intro u0
    have h1 := tally_apply (urlIs u0) e ht
    have h3 := hsp u0
    rw [htr, spawnCount_append]
    cases hm with
    | spawn url d u rest =>
        by_cases huu : u = u0 <;> simp [urlIs, spawnCount_cons, huu] at h1 ⊢ <;> omega
    | _ =>
        simp [urlIs, spawnCount_cons] at h1 ⊢
        omega

theorem AtomCount_run (f : Fetcher) (seed : String) (depth : Int) (l : List Nat) :
    AtomInv (runAtomic f (mainStart seed depth) l) ∧
    AtomCount seed (runAtomic f (mainStart seed depth) l) :=
  runAtomic_induction (fun s => AtomInv s ∧ AtomCount seed s)
    (fun _ _ _ hs h => ⟨AtomInv_step hs.1 h, AtomCount_step hs.1 hs.2 h⟩) l _
    ⟨AtomInv_start seed depth, AtomCount_start seed depth⟩

theorem tally_urlIs (u : String) (l : List Task) :
    tally (urlIs u) l = l.countP (fun t => t.url = u) := by
  induction l with
  | nil => rfl
  | cons t l ih =>
      by_cases h : t.url = u <;> simp [urlIs, List.countP_cons, h, ih]
      omega

theorem startedIs_le_urlIs (u : String) (l : List Task) :
    tally (startedIs u) l ≤ tally (urlIs u) l := by
  induction l with
  | nil => simp
  | cons t l ih =>
      simp only [tally_cons]
      have : startedIs u t ≤ urlIs u t := by
        unfold startedIs urlIs
        split_ifs <;> simp_all
      omega

theorem le_tally_of_mem (g : Task → Nat) {l : List Task} {t : Task} (h : t ∈ l) :
    g t ≤ tally g l := by
  induction l with
  | nil => cases h
  | cons x l ih =>
      simp only [tally_cons]
      rcases List.mem_cons.mp h with rfl | h1
      · omega
      · have := ih h1
        omega

/-- C10. In a run with atomic `Set`, started as `main` does: the number of
goroutines, plus those about to be started after a successful `Set`, is one
plus the number of recorded URLs, so at the end it is one plus the size of the
history; the goroutines crawling a URL are the seed goroutine, if the URL is
the seed, and one per spawn for that URL; a URL is spawned at most once, and
only after its one successful `Set`; every goroutine other than the seed
crawls a recorded URL for which `Set` succeeded once and which was spawned
once; `Fetch` is invoked at most once for a URL other than the seed and at
most twice for the seed. -/
theorem C10_atomic_Set_one_goroutine_per_marked_url (f : Fetcher) (seed : String) (depth : Int)
    (sched : List Nat) :
    ((runAtomic f (mainStart seed depth) sched).tasks.length
        + tally retNoneAny (runAtomic f (mainStart seed depth) sched).tasks
      = 1 + (runAtomic f (mainStart seed depth) sched).history.keys.card) ∧
    (allDone (runAtomic f (mainStart seed depth) sched) →
      (runAtomic f (mainStart seed depth) sched).tasks.length
        = 1 + (runAtomic f (mainStart seed depth) sched).history.keys.card) ∧
    (∀ u, (runAtomic f (mainStart seed depth) sched).tasks.countP (fun t => t.url = u)
        = (if u = seed then 1 else 0)
          + spawnCount u (runAtomic f (mainStart seed depth) sched).trace) ∧
    (∀ u, spawnCount u (runAtomic f (mainStart seed depth) sched).trace
          ≤ setOkCount u (runAtomic f (mainStart seed depth) sched).trace ∧
        setOkCount u (runAtomic f (mainStart seed depth) sched).trace
          = if u ∈ (runAtomic f (mainStart seed depth) sched).history.keys then 1 else 0) ∧
    (∀ j t, (runAtomic f (mainStart seed depth) sched).tasks[j]? = some t → 0 < j →
        t.url ∈ (runAtomic f (mainStart seed depth) sched).history.keys ∧
        setOkCount t.url (runAtomic f (mainStart seed depth) sched).trace = 1 ∧
        spawnCount t.url (runAtomic f (mainStart seed depth) sched).trace = 1) ∧
    (∀ u, u ≠ seed → fetchCount u (runAtomic f (mainStart seed depth) sched).trace ≤ 1) ∧
    fetchCount seed (runAtomic f (mainStart seed depth) sched).trace ≤ 2 := by
  obtain ⟨hinv, hper, hfe, hsz, hok, hsp⟩ := AtomCount_run f seed depth sched
  obtain ⟨l1, hl1⟩ := runAtomic_eq_run f sched (mainStart seed depth)
  have hdep := SeedFirst_run f seed depth l1
  rw [← hl1] at hdep
  generalize runAtomic f (mainStart seed depth) sched = s at *
  have hbound : ∀ u, spawnCount u s.trace + tally (retNoneFor u) s.tasks
      = if u ∈ s.history.keys then 1 else 0 := by
    intro u
    have h1 := hper u
    have h2 := hsp u
    omega
  refine ⟨hsz, ?_, ?_, ?_, ?_, ?_, ?_⟩
  · intro hd
    have : tally retNoneAny s.tasks = 0 := by
      rw [tally_eq_zero_iff]
      intro t ht
      simp [retNoneAny, hd t ht]
    omega
  · intro u
    rw [← tally_urlIs]
    have := hsp u
    omega
  · intro u
    have h1 := hbound u
    have h2 := hok u
    exact ⟨by omega, h2⟩
  · intro j t hj hpos
    obtain ⟨pc0, h0⟩ := hdep
    have hcount : (if seed = t.url then 1 else 0) + 1 ≤ tally (urlIs t.url) s.tasks := by
      cases hs : s.tasks with
      | nil => simp [hs] at hj
      | cons a l =>
          rw [hs] at hj h0
          simp at h0
          subst h0
          cases j with
          | zero => omega
          | succ j =>
              simp at hj
              have := le_tally_of_mem (urlIs t.url) (mem_of_getElem? hj)
              simp [urlIs] at this ⊢
              omega
    have h1 := hbound t.url
    have h2 := hsp t.url
    have h3 := hok t.url
    have hex : (if t.url = seed then 1 else 0) = (if seed = t.url then 1 else 0) := by
      by_cases h : t.url = seed
      · simp [h]
      · have : ¬ seed = t.url := fun h' => h h'.symm
        simp [h, this]
    by_cases hk : t.url ∈ s.history.keys
    · simp only [hk, if_true] at h1 h3
      exact ⟨hk, h3, by omega⟩
    · simp only [hk, if_false] at h1
      omega
  · intro u hu
    have h1 := hfe u
    have h2 := startedIs_le_urlIs u s.tasks
    have h3 := hsp u
    have h4 := hbound u
    simp only [hu, if_false] at h3
    split_ifs at h4 <;> omega
  · have h1 := hfe seed
    have h2 := startedIs_le_urlIs seed s.tasks
    have h3 := hsp seed
    have h4 := hbound seed
    simp only [if_true] at h3
    split_ifs at h4 <;> omega


set_option maxRecDepth 100000 in
/-- Witness for C10: the complete run of `A -> B -> A` with depth 5 has three
goroutines and two recorded URLs, and `Set("B")` succeeded once. -/
theorem C10_atomic_Set_one_goroutine_per_marked_url_witness :
    (runAtomic cycleAB (mainStart "A" 5)
        (List.replicate 5 0 ++ List.replicate 5 1 ++ List.replicate 5 2)).tasks.length
      = 1 + (runAtomic cycleAB (mainStart "A" 5)
        (List.replicate 5 0 ++ List.replicate 5 1 ++ List.replicate 5 2)).history.keys.card ∧
    setOkCount (Task.mk "B" 4 .completed).url (runAtomic cycleAB (mainStart "A" 5)
        (List.replicate 5 0 ++ List.replicate 5 1 ++ List.replicate 5 2)).trace = 1 :=
  ⟨(C10_atomic_Set_one_goroutine_per_marked_url cycleAB "A" 5
      (List.replicate 5 0 ++ List.replicate 5 1 ++ List.replicate 5 2)).2.1 (by decide),
   ((C10_atomic_Set_one_goroutine_per_marked_url cycleAB "A" 5
      (List.replicate 5 0 ++ List.replicate 5 1 ++ List.replicate 5 2)).2.2.2.2.1 1
      ⟨"B", 4, .completed⟩ (by decide) (by decide)).2.1⟩

/-! ## Deep crawls: the fetched set is the reachable set -/

theorem fetchedSet_append (l1 l2 : List Event) :
    fetchedSet (l1 ++ l2) = fetchedSet l1 ∪ fetchedSet l2 := by
  simp [fetchedSet, List.filterMap_append, List.toFinset_append]

theorem budgetOk_weak {depth : Int} {K : Finset String} {t : Task} (h : budgetOk depth K t) :
    depth ≤ t.depth + (K.card : Int) := by
  obtain ⟨url, d, pc⟩ := t
  have hc : ∀ u, ((insert u K).card : Int) ≤ K.card + 1 := by
    intro u
    have := Finset.card_insert_le u K
    omega
  show depth ≤ d + (K.card : Int)
  cases pc with
  | inSet sp u rest =>
      cases sp with
      | ret r => cases r <;> simp [budgetOk] at h <;> omega
      | lock => simp only [budgetOk] at h; have := hc u; omega
      | store => simp only [budgetOk] at h; have := hc u; omega
      | unlock => simp only [budgetOk] at h; omega
      | _ => simpa [budgetOk] using h
  | _ => simpa [budgetOk] using h

theorem budgetOk_mono {depth : Int} {K K1 : Finset String} {t : Task} (hK : K ⊆ K1)
    (h : budgetOk depth K t) : budgetOk depth K1 t := by
  obtain ⟨url, d, pc⟩ := t
  have hc : (K.card : Int) ≤ K1.card := by
    have := Finset.card_le_card hK
    omega
  have hi : ∀ u, ((insert u K).card : Int) ≤ (insert u K1).card := by
    intro u
    have := Finset.card_le_card (Finset.insert_subset_insert u hK)
    omega
  cases pc with
  | inSet sp u rest =>
      cases sp with
      | ret r => cases r <;> simp only [budgetOk] at h ⊢ <;> omega
      | lock => simp only [budgetOk] at h ⊢; have := hi u; omega
      | store => simp only [budgetOk] at h ⊢; have := hi u; omega
      | _ => simp only [budgetOk] at h ⊢; omega
  | _ => simp only [budgetOk] at h ⊢; omega

theorem TaskOk.mono {f : Fetcher} {seed : String} {depth : Int} {K K1 : Finset String}
    {tr : List Event} (evs : List Event) {t : Task} (hK : K ⊆ K1)
    (h : TaskOk f seed depth K tr t) : TaskOk f seed depth K1 (tr ++ evs) t := by
  obtain ⟨h1, h2, h3, h4, h5, h6⟩ := h
  refine ⟨h1, h2, ?_, fun u hu => hK (h4 u hu), budgetOk_mono hK h5, ?_⟩
  · rcases h3 with h | h | h | h
    · exact Or.inl h
    · exact Or.inr (Or.inl h)
    · exact Or.inr (Or.inr (Or.inl h))
    · refine Or.inr (Or.inr (Or.inr ?_))
      intro v hv
      rcases h v hv with h' | h'
      · exact Or.inl h'
      · exact Or.inr (hK h')
  · intro hp hd
    rw [fetchedSet_append]
    exact Finset.mem_union_left _ (h6 hp hd)

theorem links_ok {f : Fetcher} {u body : String} {urls : List String} (h : f u = .ok body urls) :
    links f u = urls := by
  simp [links, h]

theorem links_err {f : Fetcher} {u msg : String} (h : f u = .err msg) : links f u = [] := by
  simp [links, h]

/-- A step that changes the program counter without changing the links still
to be processed. -/
theorem TaskOk.repc {f : Fetcher} {seed : String} {depth : Int} {K : Finset String}
    {tr : List Event} {url : String} {d : Int} {pc pc1 : PC}
    (h : TaskOk f seed depth K tr ⟨url, d, pc⟩) (hu : pcUrls pc1 = pcUrls pc)
    (hp : pc ≠ .pending) (hf : pc ≠ .fetching)
    (hm : ∀ u, pcMarked pc1 = some u → u ∈ K) (hb : budgetOk depth K ⟨url, d, pc1⟩) :
    TaskOk f seed depth K tr ⟨url, d, pc1⟩ := by
  obtain ⟨h1, h2, h3, _, _, h6⟩ := h
  refine ⟨h1, ?_, ?_, hm, hb, fun _ hd => h6 hp hd⟩
  · simpa [hu] using h2
  · rcases h3 with h | h | h | h
    · exact absurd h hp
    · exact absurd h hf
    · exact Or.inr (Or.inr (Or.inl h))
    · refine Or.inr (Or.inr (Or.inr ?_))
      simpa [hu] using h

/-- The step after a returned `Set`: the link just handled is recorded. -/
theorem TaskOk.drop {f : Fetcher} {seed : String} {depth : Int} {K : Finset String}
    {tr : List Event} {url : String} {d : Int} {r : Option String} {u : String}
    {rest : List String} (h : TaskOk f seed depth K tr ⟨url, d, .inSet (.ret r) u rest⟩) :
    TaskOk f seed depth K tr ⟨url, d, .expanding rest⟩ := by
  have hw := budgetOk_weak h.budget
  obtain ⟨h1, h2, h3, h4, _, h6⟩ := h
  have huK : u ∈ K := h4 u rfl
  refine ⟨h1, ?_, ?_, ?_, ?_, fun _ hd => h6 (by simp) hd⟩
  · intro v hv
    exact h2 v (by simp [pcUrls] at hv ⊢; exact Or.inr hv)
  · rcases h3 with h | h | h | h
    · simp at h
    · simp at h
    · exact Or.inr (Or.inr (Or.inl h))
    · refine Or.inr (Or.inr (Or.inr ?_))
      intro v hv
      rcases h v hv with h' | h'
      · simp only [pcUrls, List.mem_cons] at h'
        rcases h' with rfl | h'
        · exact Or.inr huK
        · exact Or.inl h'
      · exact Or.inr h'
  · intro v hv
    simp [pcMarked] at hv
  · simpa [budgetOk] using hw

/-- Every step keeps `TaskOk` for the goroutine that moves and establishes it
for the goroutine it starts. -/
theorem TaskOk.move {f : Fetcher} {seed : String} {depth : Int} {i : Nat} {h : fetchHistory}
    {t : Task} {e : Effect} {tr : List Event} (hm : Move f i h t e)
    (hK : h.keys ⊆ e.history.keys) (hold : TaskOk f seed depth h.keys tr t) :
    TaskOk f seed depth e.history.keys (tr ++ e.events) ⟨t.url, t.depth, e.pc⟩ ∧
    ∀ c ∈ e.children, TaskOk f seed depth e.history.keys (tr ++ e.events) c := by
  have hmono := hold.mono e.events hK
  have hw := budgetOk_weak hmono.budget
  cases hm with
  | baseCase h url d hd =>
      refine ⟨⟨hmono.reach, by simp [pcUrls], Or.inr (Or.inr (Or.inl hd)), by simp [pcMarked],
        by simpa [budgetOk] using hw, ?_⟩, by simp⟩
      intro _ hpos
      simp only at hpos hd
      omega
  | callFetch h url d hd =>
      refine ⟨⟨hmono.reach, by simp [pcUrls], Or.inr (Or.inl rfl), by simp [pcMarked],
        by simpa [budgetOk] using hw, ?_⟩, by simp⟩
      intro _ _
      simp [fetchedSet]
  | fetchErr h url d msg hf =>
      refine ⟨⟨hmono.reach, by simp [pcUrls], ?_, by simp [pcMarked],
        by simpa [budgetOk] using hw, fun _ hd => hmono.fetched (by simp) hd⟩, by simp⟩
      refine Or.inr (Or.inr (Or.inr ?_))
      simp [links_err hf]
  | fetchOk h url d body urls hf =>
      refine ⟨⟨hmono.reach, by simp [pcUrls, links_ok hf], ?_, by simp [pcMarked],
        by simpa [budgetOk] using hw, fun _ hd => hmono.fetched (by simp) hd⟩, by simp⟩
      refine Or.inr (Or.inr (Or.inr ?_))
      intro v hv
      left
      simpa [links_ok hf, pcUrls] using hv
  | errReturn h url d =>
      exact ⟨hmono.repc rfl (by simp) (by simp) (by simp [pcMarked])
        (by simpa [budgetOk] using hw), by simp⟩
  | loopEnd h url d =>
      exact ⟨hmono.repc rfl (by simp) (by simp) (by simp [pcMarked])
        (by simpa [budgetOk] using hw), by simp⟩
  | callSet h url d u rest =>
      exact ⟨hmono.repc rfl (by simp) (by simp) (by simp [pcMarked])
        (by simpa [budgetOk] using hw), by simp⟩
  | sawNil b url d u rest =>
      exact ⟨hmono.repc rfl (by simp) (by simp) (by simp [pcMarked])
        (by simpa [budgetOk] using hw), by simp⟩
  | sawMap b m url d u rest =>
      exact ⟨hmono.repc rfl (by simp) (by simp) (by simp [pcMarked])
        (by simpa [budgetOk] using hw), by simp⟩
  | makeMap h url d u rest =>
      exact ⟨hmono.repc rfl (by simp) (by simp) (by simp [pcMarked])
        (by simpa [budgetOk] using hw), by simp⟩
  | present h url d u rest hu =>
      exact ⟨hmono.repc rfl (by simp) (by simp) (by simpa [pcMarked] using hu)
        (by simpa [budgetOk] using hw), by simp⟩
  | absent h url d u rest hu =>
      refine ⟨hmono.repc rfl (by simp) (by simp) (by simp [pcMarked]) ?_, by simp⟩
      simp only [budgetOk]
      rw [Finset.card_insert_of_not_mem hu]
      simp only at hw
      push_cast
      omega
  | lock m url d u rest =>
      exact ⟨hmono.repc rfl (by simp) (by simp) (by simp [pcMarked])
        (by simpa [budgetOk] using hmono.budget), by simp⟩
  | store b m url d u rest =>
      refine ⟨hmono.repc rfl (by simp) (by simp) (by simp [pcMarked, fetchHistory.keys]) ?_,
        by simp⟩
      have hb := hold.budget
      simp only [budgetOk, fetchHistory.keys] at hb ⊢
      exact hb
  | unlock m url d u rest =>
      exact ⟨hmono.repc rfl (by simp) (by simp)
        (by simpa [pcMarked] using hmono.marked u rfl)
        (by simpa [budgetOk] using hmono.budget), by simp⟩
  | skip h url d msg u rest => exact ⟨hmono.drop, by simp⟩
  | spawn h url d u rest =>
      refine ⟨hmono.drop, ?_⟩
      intro c hc
      simp only [List.mem_singleton] at hc
      subst hc
      have hb := hmono.budget
      simp only [budgetOk] at hb
      refine ⟨Reach.link url u hmono.reach (hmono.sub u (by simp [pcUrls])), by simp [pcUrls],
        Or.inl rfl, by simp [pcMarked], ?_, by simp⟩
      simp only [budgetOk]
      omega

theorem Move.keys_grow {f : Fetcher} {i : Nat} {h : fetchHistory} {t : Task} {e : Effect}
    (hm : Move f i h t e) (hun : atMake t.pc → h.history_map = none) :
    h.keys ⊆ e.history.keys ∧
    ∀ v ∈ e.history.keys, v ∈ h.keys ∨ ∃ rest, t.pc = .inSet .store v rest := by
  cases hm with
  | makeMap h url d u rest =>
      have hn := hun trivial
      obtain ⟨b, m⟩ := h
      simp only at hn
      subst hn
      simp [fetchHistory.keys]
  | store b m url d u rest =>
      simp only [fetchHistory.keys]
      refine ⟨Finset.subset_insert u m, ?_⟩
      intro v hv
      rcases Finset.mem_insert.mp hv with rfl | hv
      · exact Or.inr ⟨rest, rfl⟩
      · exact Or.inl hv
  | lock m url d u rest => simp [fetchHistory.keys]
  | unlock m url d u rest => simp [fetchHistory.keys]
  | _ => exact ⟨Finset.Subset.refl _, fun v hv => Or.inl hv⟩

theorem Move.about {f : Fetcher} {i : Nat} {h : fetchHistory} {t : Task} {e : Effect}
    (hm : Move f i h t e) (v : String) :
    (aboutToSpawn v t.pc → aboutToSpawn v e.pc ∨ ∃ c ∈ e.children, c.url = v) ∧
    ((∃ rest, t.pc = .inSet .store v rest) → aboutToSpawn v e.pc) ∧
    (∀ u ∈ fetchedSet e.events, u = t.url) := by
  cases hm <;> simp [aboutToSpawn, fetchedSet]

theorem getElem?_apply_old {s : State} {i : Nat} {t : Task} (e : Effect)
    (ht : s.tasks[i]? = some t) {j : Nat} {x : Task} (hj : s.tasks[j]? = some x) :
    (j = i ∧ x = t ∧ (s.apply i t e).tasks[j]? = some ⟨t.url, t.depth, e.pc⟩) ∨
    (j ≠ i ∧ (s.apply i t e).tasks[j]? = some x) := by
  have hjl := lt_length_of_getElem? hj
  rw [getElem?_apply e ht j]
  by_cases hji : j = i
  · left
    subst hji
    rw [ht] at hj
    cases hj
    simp
  · right
    simp [hji, hjl, hj]

theorem getElem?_apply_child (s : State) (i : Nat) (t : Task) {e : Effect}
    {c : Task} (hc : c ∈ e.children) :
    ∃ j : Nat, (s.apply i t e).tasks[j]? = some c := by
  apply List.mem_iff_getElem?.mp
  simp [State.apply, hc]

theorem DeepInv_start (f : Fetcher) (seed : String) (depth : Int) :
    DeepInv f seed depth (mainStart seed depth) := by
  refine ⟨?_, ?_, ?_, ?_⟩
  · intro j t hj
    cases j with
    | zero =>
        simp [mainStart] at hj
        subst hj
        exact ⟨Reach.seed, by simp [pcUrls], Or.inl rfl, by simp [pcMarked],
          by simp [budgetOk, mainStart, fetchHistory.zero, fetchHistory.keys], by simp⟩
    | succ j => simp [mainStart] at hj
  · intro v hv
    simp [mainStart, fetchHistory.zero, fetchHistory.keys] at hv
  · intro v hv
    simp [mainStart, fetchHistory.zero, fetchHistory.keys] at hv
  · intro u hu
    simp [mainStart, fetchedSet] at hu

theorem DeepInv_apply {f : Fetcher} {seed : String} {depth : Int} {s : State} {i : Nat}
    {t : Task} {e : Effect} (hh : HistInv s) (hinv : DeepInv f seed depth s)
    (ht : s.tasks[i]? = some t) (hm : Move f i s.history t e) :
    DeepInv f seed depth (s.apply i t e) := by
  obtain ⟨hto, hkr, hkt, hft⟩ := hinv
  obtain ⟨hK, hnew⟩ := hm.keys_grow (hh.unmade i t ht)
  have hhist : (s.apply i t e).history = e.history := rfl
  have htr : (s.apply i t e).trace = s.trace ++ e.events := rfl
  obtain ⟨hmove, hchild⟩ := @TaskOk.move f seed depth i _ t e s.trace hm hK (hto i t ht)
  refine ⟨?_, ?_, ?_, ?_⟩
  · intro j x hj
    rw [hhist, htr]
    rw [getElem?_apply e ht j] at hj
    by_cases hji : j = i
    · simp only [hji, if_true, Option.some.injEq] at hj
      subst hj
      exact hmove
    · by_cases hjl : j < s.tasks.length
      · simp only [hji, hjl, if_true, if_false] at hj
        exact (hto j x hj).mono e.events hK
      · simp only [hji, hjl, if_false] at hj
        exact hchild x (List.mem_iff_getElem?.mpr ⟨_, hj⟩)
  · intro v hv
    rw [hhist] at hv
    rcases hnew v hv with hv1 | ⟨rest, hv1⟩
    · exact hkr v hv1
    · have hok := hto i t ht
      exact Reach.link t.url v hok.reach (hok.sub v (by simp [hv1, pcUrls]))
  · intro v hv
    rw [hhist] at hv
    obtain ⟨ha1, ha2, _⟩ := hm.about v
    rcases hnew v hv with hv1 | hv1
    · obtain ⟨j, x, hj, hx⟩ := hkt v hv1
      rcases getElem?_apply_old e ht hj with ⟨rfl, rfl, hn⟩ | ⟨_, hn⟩
      · rcases hx with hx | hx
        · exact ⟨j, _, hn, Or.inl hx⟩
        · rcases ha1 hx with h1 | ⟨c, hc, hcu⟩
          · exact ⟨j, _, hn, Or.inr h1⟩
          · obtain ⟨k, hk⟩ := getElem?_apply_child s _ _ hc
            exact ⟨k, c, hk, Or.inl hcu⟩
      · exact ⟨j, x, hn, hx⟩
    · refine ⟨i, ⟨t.url, t.depth, e.pc⟩, ?_, Or.inr (ha2 hv1)⟩
      rw [getElem?_apply e ht i]
      simp
  · intro u hu
    rw [htr, fetchedSet_append] at hu
    rcases Finset.mem_union.mp hu with hu1 | hu1
    · obtain ⟨j, x, hj, hx⟩ := hft u hu1
      rcases getElem?_apply_old e ht hj with ⟨rfl, rfl, hn⟩ | ⟨_, hn⟩
      · exact ⟨j, _, hn, hx⟩
      · exact ⟨j, x, hn, hx⟩
    · have := (hm.about u).2.2 u hu1
      refine ⟨i, ⟨t.url, t.depth, e.pc⟩, ?_, this.symm⟩
      rw [getElem?_apply e ht i]
      simp

/-- A run that has not been aborted satisfies the invariants. -/
theorem DeepInv_run (f : Fetcher) (seed : String) (depth : Int) (l : List Nat) :
    crashed (run f (mainStart seed depth) l) ∨
      (HistInv (run f (mainStart seed depth) l) ∧
        DeepInv f seed depth (run f (mainStart seed depth) l)) :=
  run_alive_induction (fun s => HistInv s ∧ DeepInv f seed depth s)
    (fun _ _ _ _ hs ht hm => ⟨HistInv_apply hs.1 ht hm, DeepInv_apply hs.1 hs.2 ht hm⟩) l _
    (Or.inr ⟨HistInv_start seed depth, DeepInv_start f seed depth⟩)

theorem Reach.mem_closed {f : Fetcher} {seed : String} {U : Finset String} (hseed : seed ∈ U)
    (hclosed : linkClosed f U) {u : String} (h : Reach f seed u) : u ∈ U := by
  induction h with
  | seed => exact hseed
  | link u v _ hv ih => exact hclosed u ih v hv

/-- In a complete run whose seed depth exceeds the size of a link-closed set
containing the seed, the fetched URLs are the URLs reachable from the seed. -/
theorem fetchedSet_of_deep_run {f : Fetcher} {seed : String} {depth : Int} {U : Finset String}
    (hseed : seed ∈ U) (hclosed : linkClosed f U) (hdeep : (U.card : Int) < depth)
    (sched : List Nat) (hdone : allDone (run f (mainStart seed depth) sched)) (u : String) :
    u ∈ fetchedSet (run f (mainStart seed depth) sched).trace ↔ Reach f seed u := by
  obtain ⟨_, hto, hkr, hkt, hft⟩ :=
    (DeepInv_run f seed depth sched).resolve_left (not_crashed_of_allDone hdone)
  have hfirst := SeedFirst_run f seed depth sched
  generalize run f (mainStart seed depth) sched = s at *
  have hcard : (s.history.keys.card : Int) ≤ U.card := by
    have : s.history.keys ⊆ U := fun v hv => (hkr v hv).mem_closed hseed hclosed
    have := Finset.card_le_card this
    omega
  have hpos : ∀ (j : Nat) (t : Task), s.tasks[j]? = some t → 0 < t.depth := by
    intro j t hj
    have := budgetOk_weak (hto j t hj).budget
    omega
  have htask : ∀ v, Reach f seed v → ∃ (j : Nat) (t : Task), s.tasks[j]? = some t ∧ t.url = v := by
    intro v hv
    induction hv with
    | seed =>
        obtain ⟨pc, hpc⟩ := hfirst
        exact ⟨0, _, hpc, rfl⟩
    | link a b _ hb ih =>
        obtain ⟨j, t, hj, rfl⟩ := ih
        have hc := hdone t (mem_of_getElem? hj)
        have hp := hpos j t hj
        have hbk : b ∈ s.history.keys := by
          rcases (hto j t hj).covered with h | h | h | h
          · rw [hc] at h; cases h
          · rw [hc] at h; cases h
          · omega
          · rcases h b hb with h' | h'
            · simp [hc, pcUrls] at h'
            · exact h'
        obtain ⟨k, x, hk, hx⟩ := hkt b hbk
        have hxc := hdone x (mem_of_getElem? hk)
        rcases hx with hx | hx
        · exact ⟨k, x, hk, hx⟩
        · simp [hxc, aboutToSpawn] at hx
  constructor
  · intro hu
    obtain ⟨j, t, hj, rfl⟩ := hft u hu
    exact (hto j t hj).reach
  · intro hu
    obtain ⟨j, t, hj, rfl⟩ := htask u hu
    have hc := hdone t (mem_of_getElem? hj)
    exact (hto j t hj).fetched (by simp [hc]) (hpos j t hj)

/-- C9, amended.  When the seed depth exceeds the number of URLs of a finite
set that contains the seed and every link of each of its pages, two runs with
the same fetcher, seed and depth, both started with a fresh history and both
run until every goroutine has returned, fetch the same set of URLs, whatever
the schedules: the set of URLs reachable from the seed. -/
theorem C9_deep_runs_fetch_the_reachable_urls (f : Fetcher) (seed : String) (depth : Int)
    (U : Finset String) (hseed : seed ∈ U) (hclosed : linkClosed f U)
    (hdeep : (U.card : Int) < depth) (sched1 sched2 : List Nat)
    (h1 : allDone (run f (mainStart seed depth) sched1))
    (h2 : allDone (run f (mainStart seed depth) sched2)) :
    fetchedSet (run f (mainStart seed depth) sched1).trace
      = fetchedSet (run f (mainStart seed depth) sched2).trace ∧
    ∀ u, u ∈ fetchedSet (run f (mainStart seed depth) sched1).trace ↔ Reach f seed u := by
  refine ⟨?_, fetchedSet_of_deep_run hseed hclosed hdeep sched1 h1⟩
  ext u
  rw [fetchedSet_of_deep_run hseed hclosed hdeep sched1 h1 u,
    fetchedSet_of_deep_run hseed hclosed hdeep sched2 h2 u]

set_option maxRecDepth 100000 in
/-- Witness for the amended C9: the site `A -> B -> A` with depth 5, run once
goroutine by goroutine and once with the steps of the first two goroutines
interleaved. -/
theorem C9_deep_runs_fetch_the_reachable_urls_witness :
    fetchedSet (run cycleAB (mainStart "A" 5)
        (List.replicate 11 0 ++ List.replicate 10 1 ++ List.replicate 7 2)).trace
      = fetchedSet (run cycleAB (mainStart "A" 5)
        (List.replicate 10 0 ++ List.replicate 10 1 ++ List.replicate 1 0
          ++ List.replicate 7 2)).trace :=
  (C9_deep_runs_fetch_the_reachable_urls cycleAB "A" 5 {"A", "B"} (by decide) (by decide)
    (by decide) _ _ (by decide) (by decide)).1

end Crawler

